import Mathlib

/-!
Verification of the AcousticTalk encoding, physical and MAC layers.

The JavaScript source is embedded shallowly: byte buffers become `List Nat`
(each entry a byte value), 32-bit JavaScript integer arithmetic becomes `Nat`
arithmetic with explicit `% 2 ^ 32` (and an explicit signed reinterpretation
`signed32` where the source uses signed operators), and the imperative loops
become folds over `List.range`.
-/

set_option maxRecDepth 40000

namespace Acoustic

/-! ## CRC-32 (`EncodingLayer._generateCRCTable`, `EncodingLayer.calculateCRC`)

The source builds a 256-entry table, `table[i]` being the result of eight
conditional shift/xor steps starting from `i`, and then folds
`crc = table[(crc ^ byte) & 0xFF] ^ (crc >>> 8)` over the data starting from
`0xFFFFFFFF`, returning `crc ^ 0xFFFFFFFF`.  All values stay below `2 ^ 32`,
so plain `Nat` operations model the JS unsigned 32-bit values exactly. -/

/-- One step of the CRC table generator:
`crc = (crc & 1) ? (0xEDB88320 ^ (crc >>> 1)) : (crc >>> 1)`. -/
def crcStep (crc : Nat) : Nat :=
  if crc % 2 = 1 then Nat.xor 0xEDB88320 (crc / 2) else crc / 2

/-- `table[i]`: eight `crcStep` iterations starting from `i`. -/
def crcTable (i : Nat) : Nat :=
  crcStep (crcStep (crcStep (crcStep (crcStep (crcStep (crcStep (crcStep i)))))))

/-- `EncodingLayer.calculateCRC`: table-driven CRC-32, init `0xFFFFFFFF`,
final xor `0xFFFFFFFF`. -/
def calculateCRC (data : List Nat) : Nat :=
  Nat.xor
    (data.foldl (fun crc b => Nat.xor (crcTable (Nat.xor crc b % 256)) (crc / 256))
      0xFFFFFFFF)
    0xFFFFFFFF

/-! ## Framing (`EncodingLayer.createFrame`, `EncodingLayer.parseFrame`)

Frame layout: 2 magic bytes, type, flags, 16-bit big-endian sequence,
16-bit big-endian payload length, payload, 4-byte big-endian CRC-32 of
everything before the CRC.  `createFrame` applies the JS `||` defaults:
a `type` (or `sequence`, `flags`) of `0` is replaced by the default, which
is `MESSAGE_TYPES.DATA = 2` for `type` and `0` for the other two. -/

def createFrame (payload : List Nat) (type sequence flags : Nat) : List Nat :=
  let t := if type = 0 then 2 else type
  let body :=
    [0xAC, 0x4D, t % 256, flags % 256,
     sequence / 256 % 256, sequence % 256,
     payload.length / 256 % 256, payload.length % 256] ++ payload
  let crc := calculateCRC body
  body ++ [crc / 2 ^ 24 % 256, crc / 2 ^ 16 % 256, crc / 2 ^ 8 % 256, crc % 256]

/-- Result object of `parseFrame`: either `{valid:false, error, correctable}`
(`correctable` is only set, to `true`, on a CRC mismatch) or the parsed
fields. -/
inductive ParseResult where
  | failure (error : String) (correctable : Bool)
  | ok (type flags sequence : Nat) (payload : List Nat) (payloadLength : Nat)
  deriving DecidableEq, Repr

/-- Reinterpret an unsigned 32-bit value as a JS `Int32`, as produced by the
source expression `(b0 << 24) | (b1 << 16) | (b2 << 8) | b3`. -/
def signed32 (n : Nat) : Int :=
  if n < 2 ^ 31 then (n : Int) else (n : Int) - 2 ^ 32

/-- `EncodingLayer.parseFrame`.  Note that the received CRC is read with the
JS signed shift `<<`, hence compared through `signed32`, while the freshly
computed CRC is unsigned (`>>> 0` in `calculateCRC`). -/
def parseFrame (frame : List Nat) : ParseResult :=
  if frame.length < 12 then .failure ("Frame too short") false
  else if ¬(frame.getD 0 0 = 0xAC ∧ frame.getD 1 0 = 0x4D) then
    .failure ("Invalid magic bytes") false
  else
    let type := frame.getD 2 0
    let flags := frame.getD 3 0
    let sequence := frame.getD 4 0 * 256 + frame.getD 5 0
    let payloadLength := frame.getD 6 0 * 256 + frame.getD 7 0
    if frame.length < 8 + payloadLength + 4 then .failure ("Frame truncated") false
    else
      let payload := (frame.drop 8).take payloadLength
      let receivedCRC := signed32
        (((frame.getD (8 + payloadLength) 0 * 256 + frame.getD (8 + payloadLength + 1) 0)
            * 256 + frame.getD (8 + payloadLength + 2) 0) * 256
          + frame.getD (8 + payloadLength + 3) 0)
      let calculatedCRC := calculateCRC (frame.take (8 + payloadLength))
      if receivedCRC ≠ (calculatedCRC : Int) then .failure ("CRC mismatch") true
      else .ok type flags sequence payload payloadLength

/-- Flip bit `t` of the byte at index `idx` (used to model single-bit
corruption of a buffer). -/
def flipBitAt (l : List Nat) (idx t : Nat) : List Nat :=
  l.set idx (Nat.xor (l.getD idx 0) (2 ^ t))

/-! ## Forward error correction
(`EncodingLayer.applyFEC`, `EncodingLayer.decodeFEC`, `EncodingLayer._interleave`,
`EncodingLayer._deinterleave`)

`applyFEC` repeats each byte three times and then block-interleaves the
result with `interleaveDepth` columns (default 8): writing the stream
row-major into a `numRows × depth` grid (`numRows = ⌈len/depth⌉`, missing
cells left as the `Uint8Array` zero fill) and reading it column-major.
`decodeFEC` de-interleaves and takes a bitwise majority vote over each
triple, counting a corrected error for every 2-to-1 vote. -/

/-- The repetition step of `applyFEC`: `expanded[3i], expanded[3i+1],
expanded[3i+2] = data[i]`. -/
def tripleBytes : List Nat → List Nat
  | [] => []
  | b :: rest => b :: b :: b :: tripleBytes rest

/-- `EncodingLayer._interleave`; `(data.length + depth - 1) / depth` is the
source `numRows = Math.ceil(data.length / depth)`, and element `i` is
written to `(i % depth) * numRows + i / depth` of a zero-initialised buffer
of `numRows * depth` bytes. -/
def interleave (depth : Nat) (data : List Nat) : List Nat :=
  (List.range data.length).foldl
    (fun acc i =>
      acc.set (i % depth * ((data.length + depth - 1) / depth) + i / depth)
        (data.getD i 0))
    (List.replicate ((data.length + depth - 1) / depth * depth) 0)

/-- `EncodingLayer._deinterleave`: element `i` is written back to
`(i % numRows) * depth + i / numRows` when that index is in range. -/
def deinterleave (depth : Nat) (data : List Nat) : List Nat :=
  (List.range data.length).foldl
    (fun acc i =>
      if i % ((data.length + depth - 1) / depth) * depth
          + i / ((data.length + depth - 1) / depth) < data.length then
        acc.set (i % ((data.length + depth - 1) / depth) * depth
          + i / ((data.length + depth - 1) / depth)) (data.getD i 0)
      else acc)
    (List.replicate data.length 0)

/-- `EncodingLayer.applyFEC`: repetition followed by interleaving. -/
def applyFEC (depth : Nat) (data : List Nat) : List Nat :=
  interleave depth (tripleBytes data)

/-- The bit-by-bit majority vote of `EncodingLayer.decodeFEC` over one
replicated triple.  Returns the voted byte together with the number of
2-to-1 votes (the increments of `stats.correctedErrors`). -/
def maj3 (b1 b2 b3 : Nat) : Nat × Nat :=
  (List.range 8).foldl
    (fun acc bit =>
      let mask := Nat.shiftLeft 1 bit
      let votes := (if Nat.land b1 mask ≠ 0 then 1 else 0)
        + (if Nat.land b2 mask ≠ 0 then 1 else 0)
        + (if Nat.land b3 mask ≠ 0 then 1 else 0)
      if 2 ≤ votes then
        (Nat.lor acc.1 mask, if votes < 3 then acc.2 + 1 else acc.2)
      else acc)
    (0, 0)

/-- `EncodingLayer.decodeFEC`: de-interleave, then majority-vote each triple
(`⌊len/3⌋` output bytes).  The second component is the total number of
corrected (2-to-1) bit votes, i.e. the increase of
`stats.correctedErrors`. -/
def decodeFEC (depth : Nat) (data : List Nat) : List Nat × Nat :=
  let d := deinterleave depth data
  (List.range (d.length / 3)).foldl
    (fun acc i =>
      let m := maj3 (d.getD (i * 3) 0) (d.getD (i * 3 + 1) 0) (d.getD (i * 3 + 2) 0)
      (acc.1 ++ [m.1], acc.2 + m.2))
    ([], 0)

/-! ## Fragment reassembly (`EncodingLayer.reassembleData`)

A parsed fragment carries its sequence number, flags byte and payload.
`reassembleData` sorts the fragments by sequence (the stable JS sort with
comparator `a.sequence - b.sequence` is modelled by a stable insertion
sort), requires some fragment with flag bit 6 (`0x40`, first fragment) set
and some fragment with flag bit 7 (`0x80`, more fragments) clear, and
concatenates the payloads in sorted order. -/

structure Fragment where
  sequence : Nat
  flags : Nat
  payload : List Nat
  deriving DecidableEq, Repr

/-- Result object of `reassembleData`: either
`{complete:false, error:Missing fragments}` or
`{complete:true, data, fragmentCount}`. -/
inductive ReassembleResult where
  | missing
  | ok (data : List Nat) (fragmentCount : Nat)
  deriving DecidableEq, Repr

/-- Sort key of `reassembleData`: ascending sequence number. -/
def fragLE (a b : Fragment) : Prop := a.sequence ≤ b.sequence

instance : DecidableRel fragLE := fun a b => Nat.decLe a.sequence b.sequence

instance : IsTotal Fragment fragLE := ⟨fun a b => Nat.le_total a.sequence b.sequence⟩

instance : IsTrans Fragment fragLE := ⟨fun _ _ _ hab hbc => Nat.le_trans hab hbc⟩

def reassembleData (fragments : List Fragment) : ReassembleResult :=
  let sorted := List.insertionSort fragLE fragments
  let firstFragment := sorted.find? (fun f => Nat.land f.flags 0x40 != 0)
  let lastFragment := sorted.find? (fun f => Nat.land f.flags 0x80 == 0)
  if firstFragment.isNone || lastFragment.isNone then .missing
  else .ok (sorted.foldl (fun acc f => acc ++ f.payload) []) sorted.length

/-! ## Physical layer byte/symbol mapping
(`PhysicalLayer._bytesToSymbols`)

For 16-FSK (`bitsPerSymbol = 4`) each byte yields its high nibble then its
low nibble.  For 8-FSK (`bitsPerSymbol = 3`) the source shifts each byte
into a 32-bit `bitBuffer` and emits 3-bit groups from the top while at
least 3 bits remain, finally emitting `(bitBuffer << (3 - bitsInBuffer)) &
0x07` if 1 or 2 bits are left over. -/

/-- Sixteen-FSK branch of `PhysicalLayer._bytesToSymbols`: high nibble
`(byte >> 4) & 0x0F` then low nibble `byte & 0x0F`. -/
def bytesToSymbols16 : List Nat → List Nat
  | [] => []
  | b :: rest => b / 16 % 16 :: b % 16 :: bytesToSymbols16 rest

/-- The inner `while (bitsInBuffer >= 3)` loop of the 8-FSK branch:
emit `(bitBuffer >> (bits - 3)) & 0x07`, three bits at a time. -/
def drainBits (buffer : Nat) : Nat → List Nat
  | 0 => []
  | 1 => []
  | 2 => []
  | n + 3 => buffer / 2 ^ n % 8 :: drainBits buffer n

/-- One byte step of the 8-FSK branch: `bitBuffer = (bitBuffer << 8) | byte`
(32-bit), `bitsInBuffer += 8`, then drain.  State: buffer, bits, symbols. -/
def symbols8Step (st : Nat × Nat × List Nat) (b : Nat) : Nat × Nat × List Nat :=
  ((st.1 * 256 + b) % 2 ^ 32, (st.2.1 + 8) % 3,
   st.2.2 ++ drainBits ((st.1 * 256 + b) % 2 ^ 32) (st.2.1 + 8))

/-- The final partial-group emission of the 8-FSK branch:
`if (bitsInBuffer > 0) symbols.push((bitBuffer << (3 - bitsInBuffer)) & 0x07)`. -/
def finalizeSymbols (st : Nat × Nat × List Nat) : List Nat :=
  if 0 < st.2.1 then st.2.2 ++ [st.1 * 2 ^ (3 - st.2.1) % 2 ^ 32 % 8] else st.2.2

/-- Eight-FSK branch of `PhysicalLayer._bytesToSymbols`: fold the byte loop,
then emit the final partial group. -/
def bytesToSymbols8 (data : List Nat) : List Nat :=
  finalizeSymbols (data.foldl symbols8Step (0, 0, []))

/-- The eight bits of a byte, most significant first (specification view of
the bit stream). -/
def byteBits (b : Nat) : List Nat :=
  [b / 128 % 2, b / 64 % 2, b / 32 % 2, b / 16 % 2, b / 8 % 2, b / 4 % 2,
   b / 2 % 2, b % 2]

/-- MSB-first bit stream of a byte buffer. -/
def bytesToBits : List Nat → List Nat
  | [] => []
  | b :: rest => byteBits b ++ bytesToBits rest

/-- Specification view: group a bit stream into 3-bit symbols, MSB first,
the final partial group padded with zeros on the right (low bits), as the
code does. -/
def bitsToSyms : List Nat → List Nat
  | a :: b :: c :: rest => (4 * a + 2 * b + c) :: bitsToSyms rest
  | [a, b] => [4 * a + 2 * b]
  | [a] => [4 * a]
  | [] => []

/-- The reading taken by the claim: the final partial group is padded with zeros on
the LEFT (high bits).  Used only to refute that reading. -/
def bitsToSymsLeftPad : List Nat → List Nat
  | a :: b :: c :: rest => (4 * a + 2 * b + c) :: bitsToSymsLeftPad rest
  | [a, b] => [2 * a + b]
  | [a] => [a]
  | [] => []

/-! ## MAC layer slot assignment
(`MACLayer._processSlotRequests`, `MACLayer._getAvailableSlots`,
`MACLayer._contentionBasedSlotSelection`, `MACLayer._hashDeviceId`,
`MACLayer._onFrameStart`)

The slot table (`this.slotTable`, a JS `Map` whose `set` replaces in
place) is modelled as an association list.  A slot request carries the
requesting device, the number of slots wanted and a priority. -/

structure SlotRequest where
  deviceId : Nat
  numSlots : Nat
  priority : Nat
  deriving DecidableEq, Repr

/-- The result object passed to the callback of a request. -/
structure SlotResult where
  success : Bool
  slots : List Nat
  reason : Option String
  deriving DecidableEq, Repr

/-- Sort order of `_processSlotRequests`: descending priority
(comparator `(a, b) => b.priority - a.priority`, JS sort is stable). -/
def priorityGE (a b : SlotRequest) : Prop := b.priority ≤ a.priority

instance : DecidableRel priorityGE := fun a b => Nat.decLe b.priority a.priority

instance : IsTotal SlotRequest priorityGE :=
  ⟨fun a b => Nat.le_total b.priority a.priority⟩

instance : IsTrans SlotRequest priorityGE :=
  ⟨fun _ _ _ hab hbc => Nat.le_trans hbc hab⟩

/-- The inner slot-picking loop of `_processSlotRequests`: for
`i < k` while the pool is nonempty, take the element at index
`⌊|avail| * (i+1) / (k+1)⌋` out of the pool (`splice(slotIndex, 1)[0]`).
The first argument counts the remaining iterations (`k - i`). -/
def pickSlotsAux (k : Nat) : Nat → Nat → List Nat → List Nat × List Nat
  | 0, _, avail => ([], avail)
  | r + 1, i, avail =>
    if avail.length = 0 then ([], avail)
    else
      let slotIndex := avail.length * (i + 1) / (k + 1)
      let slot := avail.getD slotIndex 0
      let rest := pickSlotsAux k r (i + 1) (avail.eraseIdx slotIndex)
      (slot :: rest.1, rest.2)

def pickSlots (k : Nat) (avail : List Nat) : List Nat × List Nat :=
  pickSlotsAux k k 0 avail

/-- `MACLayer._getAvailableSlots`: the slots in `[0, slotsPerFrame)` not in
any slot-table entry, ascending. -/
def getAvailableSlots (S : Nat) (table : List (Nat × List Nat)) : List Nat :=
  (List.range S).filter (fun s => ! table.any (fun e => e.2.contains s))

/-- JS `Map.set`: replace the entry in place, or append a new one. -/
def setEntry : List (Nat × List Nat) → Nat → List Nat → List (Nat × List Nat)
  | [], k, v => [(k, v)]
  | e :: t, k, v => if e.1 = k then (k, v) :: t else e :: setEntry t k v

/-- The request loop of `_processSlotRequests` (coordinator branch): pick
slots for each request in order from the shared shrinking pool; a request
that gets at least one slot is recorded in the table and succeeds,
otherwise its callback receives `success:false, reason:No slots available`.  Returns (per-request results, final table, final pool). -/
def processAux : List SlotRequest → List Nat → List (Nat × List Nat) →
    List (Nat × SlotResult) × List (Nat × List Nat) × List Nat
  | [], avail, table => ([], table, avail)
  | req :: rest, avail, table =>
    let pick := pickSlots req.numSlots avail
    let table' := if pick.1 ≠ [] then setEntry table req.deviceId pick.1 else table
    let res : SlotResult :=
      if pick.1 ≠ [] then ⟨true, pick.1, none⟩
      else ⟨false, [], some ("No slots available")⟩
    let next := processAux rest pick.2 table'
    ((req.deviceId, res) :: next.1, next.2)

/-- `MACLayer._processSlotRequests`, coordinator branch: sort the pending
requests by descending priority and serve them from the free pool. -/
def processSlotRequests (S : Nat) (requests : List SlotRequest)
    (table : List (Nat × List Nat)) :
    List (Nat × SlotResult) × List (Nat × List Nat) × List Nat :=
  processAux (List.insertionSort priorityGE requests) (getAvailableSlots S table)
    table

/-- Truncate an integer to a signed 32-bit value (JS `hash & hash`). -/
def wrap32 (n : Int) : Int := (n + 2 ^ 31) % 2 ^ 32 - 2 ^ 31

/-- `MACLayer._hashDeviceId`: `hash = ((hash << 5) - hash) + c` with 32-bit
truncation, then `Math.abs`. -/
def hashDevice (chars : List Nat) : Nat :=
  (chars.foldl (fun h c => wrap32 (wrap32 (h * 32) - h + c)) 0).natAbs

/-- `MACLayer._contentionBasedSlotSelection` slot choice for one request:
slots `((hash + 7 i) % S + ⌊priority / 2⌋) % S` for `i < numSlots`; this
list becomes `assignedSlots` when the request is for the own device. -/
def contentionSlots (S hash prio k : Nat) : List Nat :=
  (List.range k).map (fun i => ((hash + i * 7) % S + prio / 2) % S)

/-- `Array.from(this.slotTable.values()).flat()`. -/
def flattenSlots (table : List (Nat × List Nat)) : List Nat :=
  (table.map (fun e => e.2)).flatten

/-- `MACLayer._onFrameStart` slot-utilisation statistic:
`usedSlots / slotsPerFrame`. -/
def slotUtilization (S : Nat) (table : List (Nat × List Nat)) : ℚ :=
  ((flattenSlots table).length : ℚ) / (S : ℚ)

/-- Well-formedness of a coordinator-maintained slot table: no slot is
assigned twice (across all devices), and every slot is a real slot index. -/
def TableWF (S : Nat) (table : List (Nat × List Nat)) : Prop :=
  (flattenSlots table).Nodup ∧ ∀ e ∈ table, ∀ s ∈ e.2, s < S

/-- The big-endian 16-bit payload-length field of a frame (bytes 6 and 7). -/
def lengthField (frame : List Nat) : Nat := frame.getD 6 0 * 256 + frame.getD 7 0

/-! # Theorems -/

theorem crcStep_lt {crc : Nat} (h : crc < 2 ^ 32) : crcStep crc < 2 ^ 32 := by
  unfold crcStep
  split
  · exact Nat.xor_lt_two_pow (by norm_num) (by omega)
  · omega

theorem crcTable_lt {i : Nat} (h : i < 2 ^ 32) : crcTable i < 2 ^ 32 := by
  unfold crcTable
  exact crcStep_lt (crcStep_lt (crcStep_lt (crcStep_lt (crcStep_lt (crcStep_lt
    (crcStep_lt (crcStep_lt h)))))))

theorem calculateCRC_lt (data : List Nat) : calculateCRC data < 2 ^ 32 := by
  unfold calculateCRC
  have main : ∀ l : List Nat, ∀ crc : Nat, crc < 2 ^ 32 →
      l.foldl (fun crc b => Nat.xor (crcTable (Nat.xor crc b % 256)) (crc / 256)) crc
        < 2 ^ 32 := by
    intro l
    induction l with
    | nil => intro crc h; simpa using h
    | cons x xs ih =>
        intro crc h
        simp only [List.foldl_cons]
        exact ih _ (Nat.xor_lt_two_pow (crcTable_lt (by omega)) (by omega))
  exact Nat.xor_lt_two_pow (main _ _ (by norm_num)) (by norm_num)

/-! ### List/fold helper lemmas -/

theorem getD_zero_replicate (n i : Nat) : (List.replicate n (0 : Nat)).getD i 0 = 0 := by
  rcases Nat.lt_or_ge i n with h | h
  · simp [List.getD_eq_getElem?_getD, List.getElem?_replicate, h]
  · simp [List.getD_eq_getElem?_getD, List.getElem?_eq_none, List.length_replicate, h]

theorem getD_set_self {l : List Nat} {k v : Nat} (h : k < l.length) :
    (l.set k v).getD k 0 = v := by
  simp [List.getD_eq_getElem?_getD, List.getElem?_set, h]

theorem getD_set_ne {l : List Nat} {k v j : Nat} (h : k ≠ j) :
    (l.set k v).getD j 0 = l.getD j 0 := by
  simp [List.getD_eq_getElem?_getD, List.getElem?_set, h]

theorem getElem_eq_getD {l : List Nat} {n : Nat} (h : n < l.length) :
    l[n] = l.getD n 0 := by
  simp [List.getD_eq_getElem?_getD, List.getElem?_eq_getElem h]

theorem foldl_set_length (f g : Nat → Nat) (n : Nat) (init : List Nat) :
    ((List.range n).foldl (fun acc i => acc.set (f i) (g i)) init).length
      = init.length := by
  induction n with
  | zero => simp
  | succ m ih =>
      rw [List.range_succ, List.foldl_append]
      simp [ih]

theorem foldl_set_getD_of_ne (f g : Nat → Nat) (init : List Nat) (n j : Nat)
    (h : ∀ i, i < n → f i ≠ j) :
    ((List.range n).foldl (fun acc i => acc.set (f i) (g i)) init).getD j 0
      = init.getD j 0 := by
  induction n with
  | zero => simp
  | succ m ih =>
      rw [List.range_succ, List.foldl_append]
      simp only [List.foldl_cons, List.foldl_nil]
      rw [getD_set_ne (h m (by omega))]
      exact ih (fun i hi => h i (by omega))

theorem foldl_set_getD_hit (f g : Nat → Nat) (init : List Nat) :
    ∀ n i₀ j : Nat, i₀ < n → f i₀ = j → (∀ i, i < n → f i = j → i = i₀) →
      j < init.length →
      ((List.range n).foldl (fun acc i => acc.set (f i) (g i)) init).getD j 0
        = g i₀ := by
  intro n
  induction n with
  | zero => intro i₀ j h; omega
  | succ m ih =>
      intro i₀ j hi hf hinj hlen
      rw [List.range_succ, List.foldl_append]
      simp only [List.foldl_cons, List.foldl_nil]
      by_cases hm : i₀ = m
      · subst hm
        rw [← hf]
        refine getD_set_self ?_
        rw [foldl_set_length, hf]
        exact hlen
      · have hne : f m ≠ j := fun he => hm (hinj m (by omega) he).symm
        rw [getD_set_ne hne]
        refine ih i₀ j ?_ hf (fun i hi' he => hinj i (by omega) he) hlen
        rcases Nat.lt_or_ge i₀ m with h | h
        · exact h
        · exact absurd (Nat.le_antisymm (by omega) h) hm

/-! ### Grid index arithmetic

The interleaver writes stream position `i` to grid position
`i % d * R + i / d`; the de-interleaver writes position `j` back to
`j % R * d + j / R`.  On `[0, R*d)` these two maps are mutually inverse
bijections. -/

theorem ceil_div_bound {len d : Nat} (hd : 0 < d) : len ≤ (len + d - 1) / d * d := by
  have h1 := Nat.div_add_mod (len + d - 1) d
  have h2 := Nat.mod_lt (len + d - 1) hd
  have h3 : (len + d - 1) / d * d = d * ((len + d - 1) / d) := Nat.mul_comm _ _
  rw [h3]
  generalize d * ((len + d - 1) / d) = P at h1 ⊢
  generalize (len + d - 1) % d = Q at h1 h2
  omega

theorem enc_lt {d R i : Nat} (hd : 0 < d) (hi : i < R * d) :
    i % d * R + i / d < R * d := by
  have h1 : i / d < R := by
    rw [Nat.div_lt_iff_lt_mul hd]
    exact hi
  have h2 : i % d < d := Nat.mod_lt _ hd
  calc i % d * R + i / d < i % d * R + R := by omega
    _ = (i % d + 1) * R := by ring
    _ ≤ d * R := Nat.mul_le_mul_right _ (by omega)
    _ = R * d := Nat.mul_comm _ _

theorem enc_dec {d R j : Nat} (hd : 0 < d) (hR : 0 < R) (hj : j < R * d) :
    (j % R * d + j / R) % d * R + (j % R * d + j / R) / d = j := by
  have h1 : j / R < d := by
    rw [Nat.div_lt_iff_lt_mul hR]
    exact lt_of_lt_of_eq hj (Nat.mul_comm R d)
  have e1 : (j % R * d + j / R) % d = j / R := by
    rw [Nat.mul_comm (j % R) d, Nat.mul_add_mod, Nat.mod_eq_of_lt h1]
  have e2 : (j % R * d + j / R) / d = j % R := by
    rw [Nat.mul_comm (j % R) d, Nat.mul_add_div hd, Nat.div_eq_of_lt h1, Nat.add_zero]
  rw [e1, e2, Nat.mul_comm]
  exact Nat.div_add_mod j R

theorem dec_enc {d R i : Nat} (hd : 0 < d) (hR : 0 < R) (hi : i < R * d) :
    (i % d * R + i / d) % R * d + (i % d * R + i / d) / R = i :=
  enc_dec hR hd (lt_of_lt_of_eq hi (Nat.mul_comm R d))

/-! ### Interleaver correctness -/

theorem interleave_length (d : Nat) (data : List Nat) :
    (interleave d data).length = (data.length + d - 1) / d * d := by
  unfold interleave
  exact (foldl_set_length _ _ _ _).trans (List.length_replicate _ _)

theorem interleave_getD (d : Nat) (hd : 0 < d) (data : List Nat) (j : Nat)
    (hj : j < (data.length + d - 1) / d * d) :
    (interleave d data).getD j 0 =
      if j % ((data.length + d - 1) / d) * d + j / ((data.length + d - 1) / d)
          < data.length
      then data.getD
        (j % ((data.length + d - 1) / d) * d + j / ((data.length + d - 1) / d)) 0
      else 0 := by
  have hR : 0 < (data.length + d - 1) / d := by
    by_contra h
    rw [Nat.not_lt, Nat.le_zero] at h
    rw [h] at hj
    omega
  set R := (data.length + d - 1) / d with hRdef
  have hlen_le : data.length ≤ R * d := ceil_div_bound hd
  unfold interleave
  rw [← hRdef]
  split
  case isTrue h =>
    refine foldl_set_getD_hit (fun i => i % d * R + i / d)
      (fun i => data.getD i 0) (List.replicate (R * d) 0)
      data.length (j % R * d + j / R) j h (enc_dec hd hR hj) ?_ ?_
    · intro i hi he
      have hi' : i < R * d := lt_of_lt_of_le hi hlen_le
      have he' : i % d * R + i / d = j := he
      calc i = (i % d * R + i / d) % R * d + (i % d * R + i / d) / R :=
            (dec_enc hd hR hi').symm
        _ = j % R * d + j / R := by rw [he']
    · rw [List.length_replicate]
      exact hj
  case isFalse h =>
    rw [foldl_set_getD_of_ne _ _ _ _ j
      (by
        intro i hi he
        have hi' : i < R * d := lt_of_lt_of_le hi hlen_le
        have he' : i % d * R + i / d = j := he
        have : i = j % R * d + j / R := by
          calc i = (i % d * R + i / d) % R * d + (i % d * R + i / d) / R :=
                (dec_enc hd hR hi').symm
            _ = j % R * d + j / R := by rw [he']
        omega)]
    exact getD_zero_replicate _ _

theorem deinterleave_unguarded (d R : Nat) (hd : 0 < d) (hR : 0 < R)
    (x : List Nat) (hx : x.length = R * d) :
    deinterleave d x =
      (List.range x.length).foldl
        (fun acc i => acc.set (i % R * d + i / R) (x.getD i 0))
        (List.replicate x.length 0) := by
  have hnum : (x.length + d - 1) / d = R := by
    rw [hx]
    have h1 : R * d + d - 1 = d - 1 + d * R := by rw [Nat.mul_comm]; omega
    rw [h1, Nat.add_mul_div_left _ _ hd, Nat.div_eq_of_lt (by omega), Nat.zero_add]
  unfold deinterleave
  rw [hnum]
  refine List.foldl_ext _ _ _ ?_
  intro acc i hi
  rw [List.mem_range] at hi
  have hlt : i % R * d + i / R < x.length := by
    rw [hx]
    have h1 : i < d * R := by rw [← Nat.mul_comm R d, ← hx]; exact hi
    exact lt_of_lt_of_eq (enc_lt hR h1) (Nat.mul_comm d R)
  simp [hlt]

theorem deinterleave_length (d R : Nat) (hd : 0 < d) (hR : 0 < R) (x : List Nat)
    (hx : x.length = R * d) : (deinterleave d x).length = x.length := by
  rw [deinterleave_unguarded d R hd hR x hx]
  exact (foldl_set_length _ _ _ _).trans (List.length_replicate _ _)

theorem deinterleave_getD (d R : Nat) (hd : 0 < d) (hR : 0 < R) (x : List Nat)
    (hx : x.length = R * d) (k : Nat) (hk : k < R * d) :
    (deinterleave d x).getD k 0 = x.getD (k % d * R + k / d) 0 := by
  rw [deinterleave_unguarded d R hd hR x hx]
  refine foldl_set_getD_hit (fun i => i % R * d + i / R)
    (fun i => x.getD i 0) (List.replicate x.length 0)
    x.length (k % d * R + k / d) k
    (by rw [hx]; exact enc_lt hd hk)
    (dec_enc hd hR hk) ?_ ?_
  · intro i hi he
    have hi' : i < d * R := by rw [← Nat.mul_comm R d, ← hx]; exact hi
    have he' : i % R * d + i / R = k := he
    calc i = (i % R * d + i / R) % d * R + (i % R * d + i / R) / d :=
          (dec_enc hR hd hi').symm
      _ = k % d * R + k / d := by rw [he']
  · rw [List.length_replicate, hx]
    exact hk

/-- De-interleaving undoes interleaving, up to the zero padding that fills
the grid. -/
theorem deinterleave_interleave (d : Nat) (hd : 0 < d) (e : List Nat) :
    deinterleave d (interleave d e)
      = e ++ List.replicate ((e.length + d - 1) / d * d - e.length) 0 := by
  rcases eq_or_ne e [] with rfl | hne
  · have hz : ((List.length ([] : List Nat)) + d - 1) / d = 0 := by
      simp only [List.length_nil, Nat.zero_add]
      exact Nat.div_eq_of_lt (by omega)
    have h1 : interleave d ([] : List Nat) = [] := by
      unfold interleave
      rw [hz]
      simp
    have h2 : deinterleave d ([] : List Nat) = [] := by
      unfold deinterleave
      simp
    rw [h1, h2, hz]
    simp
  · have hepos : 0 < e.length := List.length_pos.2 hne
    have hR : 0 < (e.length + d - 1) / d := Nat.div_pos (by omega) hd
    set R := (e.length + d - 1) / d with hRdef
    have hlen_le : e.length ≤ R * d := ceil_div_bound hd
    have hil : (interleave d e).length = R * d := interleave_length d e
    have hdl : (deinterleave d (interleave d e)).length = R * d :=
      (deinterleave_length d R hd hR _ hil).trans hil
    apply List.ext_getElem
    · rw [hdl, List.length_append, List.length_replicate]
      omega
    · intro n h1 h2
      rw [hdl] at h1
      rw [getElem_eq_getD (by omega), getElem_eq_getD (by omega)]
      rw [deinterleave_getD d R hd hR _ hil n h1]
      have henc : n % d * R + n / d < R * d := enc_lt hd h1
      rw [interleave_getD d hd e _ (by rw [← hRdef]; exact henc), ← hRdef,
        dec_enc hd hR h1]
      split
      case isTrue h =>
        rw [List.getD_append _ _ _ _ h]
      case isFalse h =>
        rw [List.getD_append_right _ _ _ _ (by omega)]
        exact (getD_zero_replicate _ _).symm

/-! ### Repetition, majority vote and decode -/

theorem tripleBytes_length (b : List Nat) : (tripleBytes b).length = 3 * b.length := by
  induction b with
  | nil => simp [tripleBytes]
  | cons x t ih =>
      simp only [tripleBytes, List.length_cons, ih]
      omega

theorem tripleBytes_getD3 (b : List Nat) : ∀ i, i < b.length →
    (tripleBytes b).getD (3 * i) 0 = b.getD i 0 ∧
    (tripleBytes b).getD (3 * i + 1) 0 = b.getD i 0 ∧
    (tripleBytes b).getD (3 * i + 2) 0 = b.getD i 0 := by
  induction b with
  | nil => intro i hi; simp at hi
  | cons x tl ih =>
      intro i hi
      match i with
      | 0 => simp [tripleBytes]
      | Nat.succ m =>
          simp only [Nat.succ_eq_add_one]
          have hm : m < tl.length := by simpa using hi
          refine ⟨?_, ?_, ?_⟩
          · rw [show (3 : Nat) * (m + 1) = 3 * m + 1 + 1 + 1 from by ring]
            simp only [tripleBytes, List.getD_cons_succ]
            exact (ih m hm).1
          · rw [show (3 : Nat) * (m + 1) + 1 = 3 * m + 1 + 1 + 1 + 1 from by ring]
            simp only [tripleBytes, List.getD_cons_succ]
            exact (ih m hm).2.1
          · rw [show (3 : Nat) * (m + 1) + 2 = 3 * m + 2 + 1 + 1 + 1 from by ring]
            simp only [tripleBytes, List.getD_cons_succ]
            exact (ih m hm).2.2

theorem foldl_pair (F : Nat → Nat × Nat) :
    ∀ (n : Nat) (l0 : List Nat) (c0 : Nat),
    (List.range n).foldl (fun acc i => (acc.1 ++ [(F i).1], acc.2 + (F i).2)) (l0, c0)
      = (l0 ++ (List.range n).map (fun i => (F i).1),
         c0 + ((List.range n).map (fun i => (F i).2)).sum) := by
  intro n
  induction n with
  | zero => intro l0 c0; simp
  | succ m ih =>
      intro l0 c0
      rw [List.range_succ, List.foldl_append, ih]
      simp [List.map_append, List.sum_append, List.append_assoc, Nat.add_assoc]

theorem range_map_prefix_pad (b : List Nat) (n : Nat) (h : b.length ≤ n) :
    (List.range n).map (fun i => if i < b.length then b.getD i 0 else 0)
      = b ++ List.replicate (n - b.length) 0 := by
  apply List.ext_getElem
  · simp
    omega
  · intro k h1 h2
    rw [List.getElem_map, List.getElem_range, List.getElem_append]
    simp only [List.length_range] at h1
    by_cases hk : k < b.length
    · rw [if_pos hk, dif_pos hk, getElem_eq_getD hk]
    · rw [if_neg hk, dif_neg hk, List.getElem_replicate]

theorem sum_map_zero (n : Nat) (F : Nat → Nat) (h : ∀ i, i < n → F i = 0) :
    ((List.range n).map F).sum = 0 := by
  apply List.sum_eq_zero
  intro x hx
  rw [List.mem_map] at hx
  obtain ⟨i, hi, rfl⟩ := hx
  exact h i (List.mem_range.1 hi)

theorem sum_map_single (F : Nat → Nat) :
    ∀ n i, i < n → (∀ j, j < n → j ≠ i → F j = 0) →
    ((List.range n).map F).sum = F i := by
  intro n
  induction n with
  | zero => intro i h; omega
  | succ m ih =>
      intro i hi h0
      rw [List.range_succ, List.map_append, List.sum_append]
      by_cases him : i = m
      · rw [sum_map_zero m F (fun j hj => h0 j (by omega) (by omega))]
        simp [him]
      · rw [ih i (by omega) (fun j hj hne => h0 j (by omega) hne)]
        have hm0 : F m = 0 := h0 m (by omega) (fun hh => him hh.symm)
        simp [hm0]

theorem decodeFEC_eq_map (depth : Nat) (x : List Nat) :
    decodeFEC depth x =
      ((List.range ((deinterleave depth x).length / 3)).map (fun i =>
        (maj3 ((deinterleave depth x).getD (i * 3) 0)
          ((deinterleave depth x).getD (i * 3 + 1) 0)
          ((deinterleave depth x).getD (i * 3 + 2) 0)).1),
       ((List.range ((deinterleave depth x).length / 3)).map (fun i =>
        (maj3 ((deinterleave depth x).getD (i * 3) 0)
          ((deinterleave depth x).getD (i * 3 + 1) 0)
          ((deinterleave depth x).getD (i * 3 + 2) 0)).2)).sum) := by
  unfold decodeFEC
  have h := foldl_pair (fun i =>
    maj3 ((deinterleave depth x).getD (i * 3) 0)
      ((deinterleave depth x).getD (i * 3 + 1) 0)
      ((deinterleave depth x).getD (i * 3 + 2) 0))
    ((deinterleave depth x).length / 3) [] 0
  simpa using h

theorem maj3_same : ∀ x, x < 256 → maj3 x x x = (x, 0) := by decide

theorem lor_two_pow_of_lt (a n : Nat) (h : a < 2 ^ n) :
    Nat.lor a (2 ^ n) = a + 2 ^ n := by
  show a ||| 2 ^ n = a + 2 ^ n
  apply Nat.eq_of_testBit_eq
  intro i
  rw [Nat.testBit_lor]
  rcases Nat.lt_trichotomy i n with hin | rfl | hin
  · rw [Nat.testBit_two_pow_of_ne (by omega), Bool.or_false]
    have h1 : a + 2 ^ n = 2 ^ n * 1 + a := by ring
    rw [h1, Nat.testBit_mul_pow_two_add 1 h, if_pos hin]
  · rw [Nat.testBit_two_pow_self, Bool.or_true]
    have h1 : a + 2 ^ i = 2 ^ i * 1 + a := by ring
    rw [h1, Nat.testBit_mul_pow_two_add 1 h, if_neg (by omega)]
    simp
  · rw [Nat.testBit_two_pow_of_ne (by omega), Bool.or_false]
    have h1 : a + 2 ^ n = 2 ^ n * 1 + a := by ring
    rw [h1, Nat.testBit_mul_pow_two_add 1 h, if_neg (by omega)]
    rw [Nat.testBit_lt_two_pow (lt_of_lt_of_le h (Nat.pow_le_pow_right (by omega) (by omega))),
      Nat.testBit_lt_two_pow (by simpa using Nat.one_lt_two_pow_iff.2 (by omega))]

theorem mod_two_pow_succ_testBit (x n : Nat) :
    x % 2 ^ (n + 1) = x % 2 ^ n + (if x.testBit n then 2 ^ n else 0) := by
  rw [pow_succ, Nat.mod_mul]
  by_cases hb : x.testBit n
  · have h1 : x / 2 ^ n % 2 = 1 := by
      have hd : x.testBit n = decide (x / 2 ^ n % 2 = 1) := Nat.testBit_to_div_mod
      rw [hb] at hd
      exact of_decide_eq_true hd.symm
    rw [h1, if_pos hb, Nat.mul_one]
  · have h0 : x / 2 ^ n % 2 = 0 := by
      have hd : x.testBit n = decide (x / 2 ^ n % 2 = 1) := Nat.testBit_to_div_mod
      rw [Bool.eq_false_iff.2 hb] at hd
      have hne : ¬(x / 2 ^ n % 2 = 1) := of_decide_eq_false hd.symm
      omega
    rw [h0, if_neg hb, Nat.mul_zero]

theorem vote_clean (b n : Nat) :
    (if Nat.land b (Nat.shiftLeft 1 n) ≠ 0 then 1 else 0 : Nat)
      = if b.testBit n then 1 else 0 := by
  have hs : Nat.shiftLeft 1 n = 2 ^ n := Nat.one_shiftLeft n
  have ha : Nat.land b (2 ^ n) = (b.testBit n).toNat * 2 ^ n := Nat.and_two_pow b n
  rw [hs, ha]
  by_cases hb : b.testBit n
  · rw [hb]
    simp [(Nat.pow_pos (show (0:Nat) < 2 by norm_num) : 0 < 2 ^ n).ne']
  · rw [Bool.eq_false_iff.2 hb]
    simp

theorem vote_corrupt (x t n : Nat) :
    (if Nat.land (Nat.xor x (2 ^ t)) (Nat.shiftLeft 1 n) ≠ 0 then 1 else 0 : Nat)
      = if n = t then (if x.testBit n then 0 else 1)
        else (if x.testBit n then 1 else 0) := by
  rw [vote_clean]
  have hx : (Nat.xor x (2 ^ t)).testBit n
      = ((x.testBit n).xor ((2 ^ t).testBit n)) := Nat.testBit_xor x (2 ^ t) n
  rw [hx]
  by_cases hnt : n = t
  · subst hnt
    rw [Nat.testBit_two_pow_self, if_pos rfl]
    by_cases hb : x.testBit n <;> simp [hb]
  · rw [Nat.testBit_two_pow_of_ne (fun hh => hnt hh.symm), if_neg hnt]
    by_cases hb : x.testBit n <;> simp [hb]

theorem maj3_eq_fold (b1 b2 b3 : Nat) :
    maj3 b1 b2 b3
      = (List.range 8).foldl
        (fun acc bit =>
          let mask := Nat.shiftLeft 1 bit
          let votes := (if Nat.land b1 mask ≠ 0 then 1 else 0)
            + (if Nat.land b2 mask ≠ 0 then 1 else 0)
            + (if Nat.land b3 mask ≠ 0 then 1 else 0)
          if 2 ≤ votes then
            (Nat.lor acc.1 mask, if votes < 3 then acc.2 + 1 else acc.2)
          else acc)
        (0, 0) := rfl

theorem maj3_fold_inv (x t y1 y2 y3 : Nat)
    (hv : ∀ n, (if Nat.land y1 (Nat.shiftLeft 1 n) ≠ 0 then 1 else 0)
        + (if Nat.land y2 (Nat.shiftLeft 1 n) ≠ 0 then 1 else 0)
        + (if Nat.land y3 (Nat.shiftLeft 1 n) ≠ 0 then 1 else 0)
      = if n = t then (if x.testBit n then 2 else 1)
        else (if x.testBit n then 3 else 0)) :
    ∀ n, (List.range n).foldl
      (fun acc bit =>
        let mask := Nat.shiftLeft 1 bit
        let votes := (if Nat.land y1 mask ≠ 0 then 1 else 0)
          + (if Nat.land y2 mask ≠ 0 then 1 else 0)
          + (if Nat.land y3 mask ≠ 0 then 1 else 0)
        if 2 ≤ votes then
          (Nat.lor acc.1 mask, if votes < 3 then acc.2 + 1 else acc.2)
        else acc)
      (0, 0)
      = (x % 2 ^ n, if t < n ∧ x.testBit t then 1 else 0) := by
  intro n
  induction n with
  | zero =>
    rw [List.range_zero, List.foldl_nil, Nat.pow_zero, Nat.mod_one,
      if_neg (fun h => Nat.not_lt_zero t h.1)]
  | succ n ih =>
    rw [List.range_succ, List.foldl_append, List.foldl_cons, List.foldl_nil, ih]
    simp only [hv]
    have hs : Nat.shiftLeft 1 n = 2 ^ n := Nat.one_shiftLeft n
    rw [hs]
    have hp : 0 < 2 ^ n := Nat.pow_pos (by norm_num)
    have hlor : Nat.lor (x % 2 ^ n) (2 ^ n) = x % 2 ^ n + 2 ^ n :=
      lor_two_pow_of_lt _ n (Nat.mod_lt x hp)
    by_cases hnt : n = t
    · subst hnt
      by_cases hb : x.testBit n
      · rw [if_pos rfl, if_pos hb,
          if_pos (by norm_num : (2:Nat) ≤ 2), if_pos (by norm_num : (2:Nat) < 3),
          Prod.mk.injEq]
        constructor
        · rw [hlor, mod_two_pow_succ_testBit, if_pos hb]
        · rw [if_neg (fun h => absurd h.1 (lt_irrefl n)),
            if_pos (show n < n + 1 ∧ x.testBit n = true from ⟨Nat.lt_succ_self n, hb⟩)]
      · rw [if_pos rfl, if_neg hb, if_neg (by norm_num : ¬(2:Nat) ≤ 1), Prod.mk.injEq]
        constructor
        · rw [mod_two_pow_succ_testBit, if_neg hb, Nat.add_zero]
        · rw [if_neg (fun h => absurd h.1 (lt_irrefl n)),
            if_neg (fun h => hb h.2)]
    · have himp : (t < n + 1 ∧ x.testBit t = true) → (t < n ∧ x.testBit t = true) := by
        rintro ⟨h5, h6⟩
        refine ⟨?_, h6⟩
        rcases Nat.lt_succ_iff_lt_or_eq.1 h5 with h7 | h7
        · exact h7
        · exact absurd h7 (fun hh => hnt hh.symm)
      have hsnd : (if t < n ∧ x.testBit t = true then 1 else 0 : Nat)
          = if t < n + 1 ∧ x.testBit t = true then 1 else 0 := by
        by_cases h4 : t < n ∧ x.testBit t = true
        · rw [if_pos h4, if_pos (show t < n + 1 ∧ x.testBit t = true from
            ⟨Nat.lt_succ_of_lt h4.1, h4.2⟩)]
        · rw [if_neg h4, if_neg (fun h5 => h4 (himp h5))]
      by_cases hb : x.testBit n
      · rw [if_neg hnt, if_pos hb, if_pos (by norm_num : (2:Nat) ≤ 3),
          if_neg (by norm_num : ¬(3:Nat) < 3), Prod.mk.injEq]
        exact ⟨by rw [hlor, mod_two_pow_succ_testBit, if_pos hb], hsnd⟩
      · rw [if_neg hnt, if_neg hb, if_neg (by norm_num : ¬(2:Nat) ≤ 0), Prod.mk.injEq]
        exact ⟨by rw [mod_two_pow_succ_testBit, if_neg hb, Nat.add_zero], hsnd⟩

theorem maj3_flip : ∀ x, x < 256 → ∀ t, t < 8 → ∀ c, c < 3 →
    maj3 (if c = 0 then Nat.xor x (2 ^ t) else x)
      (if c = 1 then Nat.xor x (2 ^ t) else x)
      (if c = 2 then Nat.xor x (2 ^ t) else x)
      = (x, if x.testBit t then 1 else 0) := by
  intro x hx t ht c hc
  have h28 : (2 : Nat) ^ 8 = 256 := by norm_num
  have hfin : ∀ z : Nat × Nat,
      z = (x % 2 ^ 8, if t < 8 ∧ x.testBit t then 1 else 0) →
      z = (x, if x.testBit t then 1 else 0) := by
    rintro z rfl
    rw [h28, Nat.mod_eq_of_lt hx]
    by_cases hb : x.testBit t
    · rw [if_pos (show t < 8 ∧ x.testBit t = true from ⟨ht, hb⟩), if_pos hb]
    · rw [if_neg (fun hh => hb hh.2), if_neg hb]
  interval_cases c
  · show maj3 (Nat.xor x (2 ^ t)) x x = (x, if x.testBit t then 1 else 0)
    rw [maj3_eq_fold]
    refine hfin _ (maj3_fold_inv x t (Nat.xor x (2 ^ t)) x x ?_ 8)
    intro n
    rw [vote_corrupt, vote_clean]
    by_cases hnt : n = t
    · subst hnt
      rw [if_pos rfl, if_pos rfl]
      by_cases hb : x.testBit n <;> simp [hb]
    · rw [if_neg hnt, if_neg hnt]
      by_cases hb : x.testBit n <;> simp [hb]
  · show maj3 x (Nat.xor x (2 ^ t)) x = (x, if x.testBit t then 1 else 0)
    rw [maj3_eq_fold]
    refine hfin _ (maj3_fold_inv x t x (Nat.xor x (2 ^ t)) x ?_ 8)
    intro n
    rw [vote_corrupt, vote_clean]
    by_cases hnt : n = t
    · subst hnt
      rw [if_pos rfl, if_pos rfl]
      by_cases hb : x.testBit n <;> simp [hb]
    · rw [if_neg hnt, if_neg hnt]
      by_cases hb : x.testBit n <;> simp [hb]
  · show maj3 x x (Nat.xor x (2 ^ t)) = (x, if x.testBit t then 1 else 0)
    rw [maj3_eq_fold]
    refine hfin _ (maj3_fold_inv x t x x (Nat.xor x (2 ^ t)) ?_ 8)
    intro n
    rw [vote_corrupt, vote_clean]
    by_cases hnt : n = t
    · subst hnt
      rw [if_pos rfl, if_pos rfl]
      by_cases hb : x.testBit n <;> simp [hb]
    · rw [if_neg hnt, if_neg hnt]
      by_cases hb : x.testBit n <;> simp [hb]


/-! ### FEC round trip and single-flip decoding -/

theorem padded_getD (b : List Nat) (q : Nat) :
    (tripleBytes b
        ++ List.replicate ((3 * b.length + 7) / 8 * 8 - 3 * b.length) 0).getD q 0
      = if q < 3 * b.length then (tripleBytes b).getD q 0 else 0 := by
  by_cases h : q < 3 * b.length
  · rw [if_pos h, List.getD_append _ _ _ _ (by rw [tripleBytes_length]; omega)]
  · rw [if_neg h, List.getD_append_right _ _ _ _ (by rw [tripleBytes_length]; omega)]
    exact getD_zero_replicate _ _

theorem applyFEC_deinterleave (b : List Nat) :
    deinterleave 8 (applyFEC 8 b)
      = tripleBytes b
        ++ List.replicate ((3 * b.length + 7) / 8 * 8 - 3 * b.length) 0 := by
  have h := deinterleave_interleave 8 (by omega) (tripleBytes b)
  rw [tripleBytes_length] at h
  have e : 3 * b.length + 8 - 1 = 3 * b.length + 7 := by omega
  rw [e] at h
  exact h

theorem applyFEC_length (b : List Nat) :
    (applyFEC 8 b).length = (3 * b.length + 7) / 8 * 8 := by
  unfold applyFEC
  rw [interleave_length, tripleBytes_length]
  omega

theorem deinterleave_applyFEC_length (b : List Nat) :
    (deinterleave 8 (applyFEC 8 b)).length = (3 * b.length + 7) / 8 * 8 := by
  rw [applyFEC_deinterleave, List.length_append, List.length_replicate,
    tripleBytes_length]
  omega

theorem getD_lt_of_forall {b : List Nat} (hb : ∀ x ∈ b, x < 256) {i : Nat}
    (hi : i < b.length) : b.getD i 0 < 256 := by
  have hmem : b.getD i 0 ∈ b := by
    rw [← getElem_eq_getD hi]
    exact List.getElem_mem hi
  exact hb _ hmem

theorem fec_roundTrip (b : List Nat) (hb : ∀ x ∈ b, x < 256) :
    decodeFEC 8 (applyFEC 8 b)
      = (b ++ List.replicate ((3 * b.length + 7) / 8 * 8 / 3 - b.length) 0, 0) := by
  have hNle : b.length ≤ (3 * b.length + 7) / 8 * 8 / 3 := by omega
  rw [decodeFEC_eq_map, deinterleave_applyFEC_length]
  have hval : ∀ i, i < (3 * b.length + 7) / 8 * 8 / 3 →
      maj3 ((deinterleave 8 (applyFEC 8 b)).getD (i * 3) 0)
        ((deinterleave 8 (applyFEC 8 b)).getD (i * 3 + 1) 0)
        ((deinterleave 8 (applyFEC 8 b)).getD (i * 3 + 2) 0)
      = (if i < b.length then b.getD i 0 else 0, 0) := by
    intro i hi
    rw [applyFEC_deinterleave, padded_getD, padded_getD, padded_getD]
    by_cases hib : i < b.length
    · rw [if_pos hib, if_pos (show i * 3 < 3 * b.length from by omega),
        if_pos (show i * 3 + 1 < 3 * b.length from by omega),
        if_pos (show i * 3 + 2 < 3 * b.length from by omega)]
      rw [show i * 3 = 3 * i from by ring]
      have t3 := tripleBytes_getD3 b i hib
      rw [t3.1, t3.2.1, t3.2.2]
      exact maj3_same _ (getD_lt_of_forall hb hib)
    · rw [if_neg hib, if_neg (show ¬(i * 3 < 3 * b.length) from by omega),
        if_neg (show ¬(i * 3 + 1 < 3 * b.length) from by omega),
        if_neg (show ¬(i * 3 + 2 < 3 * b.length) from by omega)]
      exact maj3_same 0 (by omega)
  rw [Prod.mk.injEq]
  constructor
  · trans ((List.range ((3 * b.length + 7) / 8 * 8 / 3)).map
      (fun i => if i < b.length then b.getD i 0 else 0))
    · exact List.map_congr_left (fun i hi => by rw [hval i (List.mem_range.1 hi)])
    · exact range_map_prefix_pad b _ hNle
  · exact sum_map_zero _ _ (fun i hi => by rw [hval i hi])

theorem applyFEC_flip_deinterleave (b : List Nat) (p t : Nat)
    (hp : p < 3 * b.length) :
    deinterleave 8 (flipBitAt (applyFEC 8 b)
        (p % 8 * ((3 * b.length + 7) / 8) + p / 8) t)
      = (tripleBytes b
          ++ List.replicate ((3 * b.length + 7) / 8 * 8 - 3 * b.length) 0).set p
          (Nat.xor ((tripleBytes b).getD p 0) (2 ^ t)) := by
  have hR : 0 < (3 * b.length + 7) / 8 := by omega
  have hXlen : (applyFEC 8 b).length = (3 * b.length + 7) / 8 * 8 :=
    applyFEC_length b
  have hpR : p < (3 * b.length + 7) / 8 * 8 := by omega
  have hJ : p % 8 * ((3 * b.length + 7) / 8) + p / 8
      < (3 * b.length + 7) / 8 * 8 := by
    have h := enc_lt (d := 8) (R := (3 * b.length + 7) / 8) (by omega) hpR
    omega
  have hdec : (p % 8 * ((3 * b.length + 7) / 8) + p / 8) % ((3 * b.length + 7) / 8)
        * 8 + (p % 8 * ((3 * b.length + 7) / 8) + p / 8) / ((3 * b.length + 7) / 8)
      = p := dec_enc (by omega) hR hpR
  have hTBR : ((tripleBytes b).length + 8 - 1) / 8 = (3 * b.length + 7) / 8 := by
    rw [tripleBytes_length]
    omega
  have hXJ : (applyFEC 8 b).getD
      (p % 8 * ((3 * b.length + 7) / 8) + p / 8) 0 = (tripleBytes b).getD p 0 := by
    have h1 := interleave_getD 8 (by omega) (tripleBytes b)
      (p % 8 * ((3 * b.length + 7) / 8) + p / 8)
      (by rw [hTBR]; exact hJ)
    rw [hTBR, hdec, tripleBytes_length, if_pos hp] at h1
    exact h1
  have hYlen : (flipBitAt (applyFEC 8 b)
      (p % 8 * ((3 * b.length + 7) / 8) + p / 8) t).length
      = (3 * b.length + 7) / 8 * 8 := by
    unfold flipBitAt
    rw [List.length_set]
    exact hXlen
  have hdY : (deinterleave 8 (flipBitAt (applyFEC 8 b)
      (p % 8 * ((3 * b.length + 7) / 8) + p / 8) t)).length
      = (3 * b.length + 7) / 8 * 8 :=
    (deinterleave_length 8 _ (by omega) hR _ hYlen).trans hYlen
  apply List.ext_getElem
  · rw [hdY, List.length_set, List.length_append, List.length_replicate,
      tripleBytes_length]
    omega
  · intro n h1 h2
    rw [hdY] at h1
    rw [getElem_eq_getD (by omega), getElem_eq_getD (by omega)]
    rw [deinterleave_getD 8 ((3 * b.length + 7) / 8) (by omega) hR _ hYlen n h1]
    by_cases hnp : n = p
    · subst hnp
      unfold flipBitAt
      rw [getD_set_self (by omega), getD_set_self (by
        rw [List.length_append, List.length_replicate, tripleBytes_length]; omega)]
      rw [hXJ]
    · have hne : n % 8 * ((3 * b.length + 7) / 8) + n / 8
          ≠ p % 8 * ((3 * b.length + 7) / 8) + p / 8 := by
        intro he
        have d1 := dec_enc (d := 8) (R := (3 * b.length + 7) / 8) (by omega) hR h1
        rw [he, hdec] at d1
        exact hnp d1.symm
      unfold flipBitAt
      rw [getD_set_ne (fun hh => hne hh.symm), getD_set_ne (fun hh => hnp hh.symm)]
      have h3 := deinterleave_getD 8 ((3 * b.length + 7) / 8) (by omega) hR
        (applyFEC 8 b) hXlen n h1
      rw [applyFEC_deinterleave] at h3
      exact h3.symm


theorem fec_single_flip (b : List Nat) (hb : ∀ x ∈ b, x < 256) (i c t : Nat)
    (hi : i < b.length) (hc : c < 3) (ht : t < 8) :
    decodeFEC 8 (flipBitAt (applyFEC 8 b)
        ((3 * i + c) % 8 * ((3 * b.length + 7) / 8) + (3 * i + c) / 8) t)
      = (b ++ List.replicate ((3 * b.length + 7) / 8 * 8 / 3 - b.length) 0,
         if (b.getD i 0).testBit t then 1 else 0) := by
  have hp : 3 * i + c < 3 * b.length := by omega
  have hD := applyFEC_flip_deinterleave b (3 * i + c) t hp
  have hlen : (deinterleave 8 (flipBitAt (applyFEC 8 b)
      ((3 * i + c) % 8 * ((3 * b.length + 7) / 8) + (3 * i + c) / 8) t)).length
      = (3 * b.length + 7) / 8 * 8 := by
    rw [hD, List.length_set, List.length_append, List.length_replicate,
      tripleBytes_length]
    omega
  rw [decodeFEC_eq_map, hlen, hD]
  have hYval : ∀ q,
      ((tripleBytes b
        ++ List.replicate ((3 * b.length + 7) / 8 * 8 - 3 * b.length) 0).set
          (3 * i + c) (Nat.xor ((tripleBytes b).getD (3 * i + c) 0) (2 ^ t))).getD q 0
      = if q = 3 * i + c
        then Nat.xor ((tripleBytes b).getD (3 * i + c) 0) (2 ^ t)
        else if q < 3 * b.length then (tripleBytes b).getD q 0 else 0 := by
    intro q
    by_cases hq : q = 3 * i + c
    · rw [if_pos hq, hq, getD_set_self (by
        rw [List.length_append, List.length_replicate, tripleBytes_length]; omega)]
    · rw [if_neg hq, getD_set_ne (fun hh => hq hh.symm), padded_getD]
  have hval : ∀ k, k < (3 * b.length + 7) / 8 * 8 / 3 →
      maj3 (((tripleBytes b
          ++ List.replicate ((3 * b.length + 7) / 8 * 8 - 3 * b.length) 0).set
            (3 * i + c) (Nat.xor ((tripleBytes b).getD (3 * i + c) 0) (2 ^ t))).getD
          (k * 3) 0)
        (((tripleBytes b
          ++ List.replicate ((3 * b.length + 7) / 8 * 8 - 3 * b.length) 0).set
            (3 * i + c) (Nat.xor ((tripleBytes b).getD (3 * i + c) 0) (2 ^ t))).getD
          (k * 3 + 1) 0)
        (((tripleBytes b
          ++ List.replicate ((3 * b.length + 7) / 8 * 8 - 3 * b.length) 0).set
            (3 * i + c) (Nat.xor ((tripleBytes b).getD (3 * i + c) 0) (2 ^ t))).getD
          (k * 3 + 2) 0)
      = (if k < b.length then b.getD k 0 else 0,
         if k = i then (if (b.getD i 0).testBit t then 1 else 0) else 0) := by
    intro k hk
    rw [hYval, hYval, hYval]
    have hx := getD_lt_of_forall hb hi
    by_cases hki : k = i
    · subst hki
      rw [if_pos hi, if_pos rfl]
      have t3 := tripleBytes_getD3 b k hi
      interval_cases c
      · rw [if_pos (show k * 3 = 3 * k + 0 from by ring),
          if_neg (show ¬(k * 3 + 1 = 3 * k + 0) from by omega),
          if_neg (show ¬(k * 3 + 2 = 3 * k + 0) from by omega),
          if_pos (show k * 3 + 1 < 3 * b.length from by omega),
          if_pos (show k * 3 + 2 < 3 * b.length from by omega)]
        rw [show (3 : Nat) * k + 0 = 3 * k from by ring,
          show k * 3 + 1 = 3 * k + 1 from by ring,
          show k * 3 + 2 = 3 * k + 2 from by ring]
        rw [t3.1, t3.2.1, t3.2.2]
        simpa using maj3_flip (b.getD k 0) hx t ht 0 (by omega)
      · rw [if_neg (show ¬(k * 3 = 3 * k + 1) from by omega),
          if_pos (show k * 3 + 1 = 3 * k + 1 from by ring),
          if_neg (show ¬(k * 3 + 2 = 3 * k + 1) from by omega),
          if_pos (show k * 3 < 3 * b.length from by omega),
          if_pos (show k * 3 + 2 < 3 * b.length from by omega)]
        rw [show k * 3 = 3 * k from by ring]
        rw [t3.1, t3.2.1, t3.2.2]
        simpa using maj3_flip (b.getD k 0) hx t ht 1 (by omega)
      · rw [if_neg (show ¬(k * 3 = 3 * k + 2) from by omega),
          if_neg (show ¬(k * 3 + 1 = 3 * k + 2) from by omega),
          if_pos (show k * 3 + 2 = 3 * k + 2 from by ring),
          if_pos (show k * 3 < 3 * b.length from by omega),
          if_pos (show k * 3 + 1 < 3 * b.length from by omega)]
        rw [show k * 3 = 3 * k from by ring]
        rw [t3.1, t3.2.1, t3.2.2]
        simpa using maj3_flip (b.getD k 0) hx t ht 2 (by omega)
    · rw [if_neg hki,
        if_neg (show ¬(k * 3 = 3 * i + c) from by omega),
        if_neg (show ¬(k * 3 + 1 = 3 * i + c) from by omega),
        if_neg (show ¬(k * 3 + 2 = 3 * i + c) from by omega)]
      by_cases hkb : k < b.length
      · rw [if_pos hkb, if_pos (show k * 3 < 3 * b.length from by omega),
          if_pos (show k * 3 + 1 < 3 * b.length from by omega),
          if_pos (show k * 3 + 2 < 3 * b.length from by omega)]
        rw [show k * 3 = 3 * k from by ring]
        have t3 := tripleBytes_getD3 b k hkb
        rw [t3.1, t3.2.1, t3.2.2]
        exact maj3_same _ (getD_lt_of_forall hb hkb)
      · rw [if_neg hkb, if_neg (show ¬(k * 3 < 3 * b.length) from by omega),
          if_neg (show ¬(k * 3 + 1 < 3 * b.length) from by omega),
          if_neg (show ¬(k * 3 + 2 < 3 * b.length) from by omega)]
        exact maj3_same 0 (by omega)
  rw [Prod.mk.injEq]
  constructor
  · trans ((List.range ((3 * b.length + 7) / 8 * 8 / 3)).map
      (fun k => if k < b.length then b.getD k 0 else 0))
    · exact List.map_congr_left (fun k hk => by rw [hval k (List.mem_range.1 hk)])
    · exact range_map_prefix_pad b _ (by omega)
  · trans ((List.range ((3 * b.length + 7) / 8 * 8 / 3)).map
      (fun k => if k = i
        then (if (b.getD i 0).testBit t then 1 else 0) else 0)).sum
    · exact congrArg List.sum
        (List.map_congr_left (fun k hk => by rw [hval k (List.mem_range.1 hk)]))
    · rw [sum_map_single
        (fun k => if k = i then (if (b.getD i 0).testBit t then 1 else 0) else 0)
        ((3 * b.length + 7) / 8 * 8 / 3) i (by omega)
        (fun j hj hne => by simp [hne])]
      simp


/-! ### Parse failure taxonomy helpers -/

theorem getD_lt_256 {frame : List Nat} (hb : ∀ x ∈ frame, x < 256) (i : Nat) :
    frame.getD i 0 < 256 := by
  rcases Nat.lt_or_ge i frame.length with h | h
  · exact getD_lt_of_forall hb h
  · rw [List.getD_eq_getElem?_getD, List.getElem?_eq_none h]
    simp

theorem signed32_ne {u v : Nat} (hu : u < 2 ^ 32) (hne : u ≠ v) :
    signed32 u ≠ (v : Int) := by
  unfold signed32
  split
  · intro h
    exact hne (by exact_mod_cast h)
  · intro h
    omega

/-! ## Claim theorems -/

/-- Claim C2: `calculateCRC` implements IEEE 802.3 CRC-32 (table-driven,
reflected polynomial `0xEDB88320`, init `0xFFFFFFFF`, final xor
`0xFFFFFFFF`): the CRC of the empty buffer is `0x00000000` and the CRC of
the ASCII bytes of `"123456789"` is `0xCBF43926`. -/
theorem crc32_test_vectors :
    calculateCRC [] = 0x00000000 ∧
    calculateCRC [49, 50, 51, 52, 53, 54, 55, 56, 57] = 0xCBF43926 := by
  exact ⟨by decide, by decide⟩

/-- Claim C1 (code bug): the frame round trip fails on the unmodified output
of `createFrame` for the empty payload with all-default options.  The CRC of
that frame is `0xF0D49818`, whose top bit is set; `parseFrame` reads the
stored CRC back with the signed 32-bit shift `<< 24`, obtains a negative
number, and the comparison with the unsigned recomputed CRC fails, so the
valid frame is rejected as a CRC mismatch instead of parsing back to the
empty payload. -/
theorem roundTrip_fails_on_empty_payload :
    parseFrame (createFrame [] 0 0 0) = .failure ("CRC mismatch") true := by
  decide

/-- Claim C3 counterexample: FEC decoding is not the exact inverse of FEC
encoding.  For the one-byte buffer `[1]`, the tripled stream (3 bytes) is
zero-padded to the 8-byte grid, and decoding returns `[1, 0]`, not `[1]`. -/
theorem fec_roundTrip_counterexample :
    (decodeFEC 8 (applyFEC 8 [1])).1 ≠ [1] ∧
    decodeFEC 8 (applyFEC 8 [1]) = ([1, 0], 0) := by
  exact ⟨by decide, by decide⟩

/-- Claim C3 (amended): for every byte buffer `b`,
`decodeFEC (applyFEC b)` returns `b` followed by
`⌊8⌈3|b|/8⌉/3⌋ - |b|` zero bytes (the interleaver grid padding decoded as
extra bytes), with no corrected errors; the round trip is exact precisely
when that count is zero (e.g. when `|b|` is a multiple of 8). -/
theorem fec_roundTrip_padded (b : List Nat) (hb : ∀ x ∈ b, x < 256) :
    decodeFEC 8 (applyFEC 8 b)
      = (b ++ List.replicate ((3 * b.length + 7) / 8 * 8 / 3 - b.length) 0, 0) :=
  fec_roundTrip b hb

/-- Witness for the amended C3 theorem at `b = [0xAA, 0x55]` (a length for
which the padding is empty and the round trip is exact). -/
theorem fec_roundTrip_padded_witness :
    decodeFEC 8 (applyFEC 8 [170, 85]) = ([170, 85], 0) :=
  (fec_roundTrip_padded [170, 85] (by decide)).trans (by decide)

/-- Claim C4 counterexample: flipping bit 0 of the first copy of byte 0 of
`applyFEC [0xAA, 0x55]` (a 0-bit of `0xAA` flipped to 1) still decodes to
`[0xAA, 0x55]`, but the corrected-error counter increases by 0, not by 1:
the 1-vs-2 vote for a corrupted 0-bit is not counted by the code. -/
theorem fec_flip_count_counterexample :
    decodeFEC 8 (flipBitAt (applyFEC 8 [170, 85]) 0 0) = ([170, 85], 0) := by
  decide

/-- Claim C4 (amended): flipping bit `t` of copy `c` of byte `i` in
`applyFEC b` (position `(3i+c) % 8 · R + (3i+c)/8` of the interleaved
stream, `R = ⌈3|b|/8⌉`) still decodes to `b` (followed by the usual grid
padding), and the corrected-error counter increases by one exactly when the
flipped bit of `b[i]` was 1 (a 1 → 0 corruption); a 0 → 1 corruption is
outvoted without being counted. -/
theorem fec_single_flip_decodes (b : List Nat) (hb : ∀ x ∈ b, x < 256)
    (i c t : Nat) (hi : i < b.length) (hc : c < 3) (ht : t < 8) :
    decodeFEC 8 (flipBitAt (applyFEC 8 b)
        ((3 * i + c) % 8 * ((3 * b.length + 7) / 8) + (3 * i + c) / 8) t)
      = (b ++ List.replicate ((3 * b.length + 7) / 8 * 8 / 3 - b.length) 0,
         if (b.getD i 0).testBit t then 1 else 0) :=
  fec_single_flip b hb i c t hi hc ht

/-- Witness for the amended C4 theorem: flipping bit 1 of copy 0 of byte 0 of
`applyFEC [0xAA, 0x55]` (a 1-bit of `0xAA`) decodes to `[0xAA, 0x55]` with
one corrected error. -/
theorem fec_single_flip_decodes_witness :
    decodeFEC 8 (flipBitAt (applyFEC 8 [170, 85])
        ((3 * 0 + 0) % 8 * ((3 * [170, 85].length + 7) / 8) + (3 * 0 + 0) / 8) 1)
      = ([170, 85], 1) :=
  (fec_single_flip_decodes [170, 85] (by decide) 0 0 1 (by decide) (by decide)
    (by decide)).trans (by decide)


/-- Claim C5: the `parseFrame` failure taxonomy.  `Frame too short` exactly
when the buffer has fewer than 12 bytes; `Invalid magic bytes` when (the
length check passed and) bytes 0 and 1 are not `0xAC 0x4D`; `Frame
truncated` when the buffer is shorter than `12 + L` for the big-endian
length field `L`; a correctable `CRC mismatch` when the stored CRC differs
from the recomputed one; and flipping bit 0 of any payload byte of
`createFrame [1, 2, 3]` yields a CRC mismatch. -/
theorem parseFrame_taxonomy :
    (∀ frame : List Nat,
      parseFrame frame = .failure ("Frame too short") false ↔ frame.length < 12) ∧
    (∀ frame : List Nat, 12 ≤ frame.length →
      ¬(frame.getD 0 0 = 0xAC ∧ frame.getD 1 0 = 0x4D) →
      parseFrame frame = .failure ("Invalid magic bytes") false) ∧
    (∀ frame : List Nat, 12 ≤ frame.length →
      frame.getD 0 0 = 0xAC → frame.getD 1 0 = 0x4D →
      frame.length < 12 + lengthField frame →
      parseFrame frame = .failure ("Frame truncated") false) ∧
    (∀ frame : List Nat, (∀ x ∈ frame, x < 256) → 12 ≤ frame.length →
      frame.getD 0 0 = 0xAC → frame.getD 1 0 = 0x4D →
      12 + lengthField frame ≤ frame.length →
      ((frame.getD (8 + lengthField frame) 0 * 256
          + frame.getD (8 + lengthField frame + 1) 0) * 256
          + frame.getD (8 + lengthField frame + 2) 0) * 256
          + frame.getD (8 + lengthField frame + 3) 0
        ≠ calculateCRC (frame.take (8 + lengthField frame)) →
      parseFrame frame = .failure ("CRC mismatch") true) ∧
    (parseFrame (flipBitAt (createFrame [1, 2, 3] 0 0 0) 8 0)
        = .failure ("CRC mismatch") true ∧
     parseFrame (flipBitAt (createFrame [1, 2, 3] 0 0 0) 9 0)
        = .failure ("CRC mismatch") true ∧
     parseFrame (flipBitAt (createFrame [1, 2, 3] 0 0 0) 10 0)
        = .failure ("CRC mismatch") true) := by
  refine ⟨?_, ?_, ?_, ?_, by decide, by decide, by decide⟩
  · intro frame
    constructor
    · intro h
      by_contra hlen
      rw [Nat.not_lt] at hlen
      simp only [parseFrame] at h
      split_ifs at h <;> first | omega | simp_all
    · intro h
      simp only [parseFrame]
      rw [if_pos h]
  · intro frame hlen hmagic
    simp only [parseFrame]
    split_ifs with h1
    · exact absurd h1 (by omega)
    · rfl
  · intro frame hlen hm0 hm1 htr
    simp only [lengthField] at htr
    simp only [parseFrame]
    split_ifs with h1 h2 h3 h4
    · exact absurd h1 (by omega)
    · rfl
    · exact absurd htr (by omega)
    · omega
    · exact absurd ⟨hm0, hm1⟩ h2
  · intro frame hb hlen hm0 hm1 hfit hne
    simp only [lengthField] at hfit hne
    simp only [parseFrame]
    split_ifs with h1 h2 h3 h4
    · exact absurd h1 (by omega)
    · exact absurd h3 (by omega)
    · rfl
    · rw [not_ne_iff] at h4
      have hu : (((frame.getD (8 + (frame.getD 6 0 * 256 + frame.getD 7 0)) 0 * 256
          + frame.getD (8 + (frame.getD 6 0 * 256 + frame.getD 7 0) + 1) 0) * 256
          + frame.getD (8 + (frame.getD 6 0 * 256 + frame.getD 7 0) + 2) 0) * 256
          + frame.getD (8 + (frame.getD 6 0 * 256 + frame.getD 7 0) + 3) 0) < 2 ^ 32 := by
        have b0 := getD_lt_256 hb (8 + (frame.getD 6 0 * 256 + frame.getD 7 0))
        have b1 := getD_lt_256 hb (8 + (frame.getD 6 0 * 256 + frame.getD 7 0) + 1)
        have b2 := getD_lt_256 hb (8 + (frame.getD 6 0 * 256 + frame.getD 7 0) + 2)
        have b3 := getD_lt_256 hb (8 + (frame.getD 6 0 * 256 + frame.getD 7 0) + 3)
        omega
      exact signed32_ne hu hne h4
    · exact absurd ⟨hm0, hm1⟩ h2


/-- Witness for the C5 taxonomy theorem at concrete frames: a 3-byte buffer
(too short), a 12-byte buffer with wrong magic, a frame whose length field
claims 5 payload bytes but which ends after the header, and a 12-byte
frame with magic and a wrong CRC. -/
theorem parseFrame_taxonomy_witness :
    parseFrame [0, 1, 2] = .failure ("Frame too short") false ∧
    parseFrame [0, 1, 2, 3, 4, 5, 6, 7, 8, 9, 10, 11]
      = .failure ("Invalid magic bytes") false ∧
    parseFrame [172, 77, 2, 0, 0, 0, 0, 5, 0, 0, 0, 0]
      = .failure ("Frame truncated") false ∧
    parseFrame [172, 77, 2, 0, 0, 0, 0, 0, 1, 2, 3, 4]
      = .failure ("CRC mismatch") true :=
  ⟨(parseFrame_taxonomy.1 [0, 1, 2]).mpr (by decide),
   parseFrame_taxonomy.2.1 _ (by decide) (by decide),
   parseFrame_taxonomy.2.2.1 _ (by decide) (by decide) (by decide) (by decide),
   parseFrame_taxonomy.2.2.2.1 _ (by decide) (by decide) (by decide) (by decide)
     (by decide) (by decide)⟩

/-! ### Reassembly -/

theorem insertionSort_eq_of_perm (l₁ l₂ : List Fragment) (hperm : l₁.Perm l₂)
    (hnd : (l₂.map Fragment.sequence).Nodup) :
    List.insertionSort fragLE l₁ = List.insertionSort fragLE l₂ := by
  have hnd1 : (l₁.map Fragment.sequence).Nodup := ((hperm.map _).symm).nodup hnd
  have hp1 := List.perm_insertionSort fragLE l₁
  have hp2 := List.perm_insertionSort fragLE l₂
  have hs1 := List.sorted_insertionSort fragLE l₁
  have hs2 := List.sorted_insertionSort fragLE l₂
  have hpair : ∀ l : List Fragment, (l.map Fragment.sequence).Nodup →
      ∀ ls, ls.Perm l → List.Sorted fragLE ls →
      List.Pairwise (fun a b : Fragment => a.sequence < b.sequence) ls := by
    intro l hl ls hpl hsl
    have h1 : ls.Pairwise (fun a b : Fragment => a.sequence ≠ b.sequence) := by
      have h2 : l.Pairwise (fun a b : Fragment => a.sequence ≠ b.sequence) := by
        rw [List.Nodup, List.pairwise_map] at hl
        exact hl
      exact (hpl.pairwise_iff (fun h => Ne.symm h)).2 h2
    exact (hsl.and h1).imp (fun h => lt_of_le_of_ne h.1 h.2)
  haveI : IsAntisymm Fragment (fun a b : Fragment => a.sequence < b.sequence) :=
    ⟨fun a b h1 h2 => absurd h1 (by omega)⟩
  exact List.eq_of_perm_of_sorted (hp1.trans (hperm.trans hp2.symm))
    (hpair l₁ hnd1 _ hp1 hs1) (hpair l₂ hnd _ hp2 hs2)

theorem foldl_append_payload (l : List Fragment) :
    ∀ acc : List Nat, l.foldl (fun acc f => acc ++ f.payload) acc
      = acc ++ (l.map Fragment.payload).flatten := by
  induction l with
  | nil => intro acc; simp
  | cons f t ih =>
      intro acc
      simp only [List.foldl_cons, List.map_cons, List.flatten_cons, ih,
        List.append_assoc]


/-- Claim C6 counterexample: with fragments 0 (first, more-fragments) and 2
(last) present but middle fragment 1 missing, `reassembleData` does NOT
report an error; it returns `complete` with the remaining payloads
concatenated. -/
theorem reassembleData_missing_middle_counterexample :
    reassembleData [⟨0, 0xC0, [1]⟩, ⟨2, 0, [3]⟩] = .ok [1, 3] 2 ∧
    reassembleData [⟨0, 0xC0, [1]⟩, ⟨2, 0, [3]⟩] ≠ .missing := by
  exact ⟨by decide, by decide⟩

/-- Claim C6 (amended): `reassembleData` sorts the fragments by sequence
number (its result is invariant under permutation of the input when the
sequence numbers are distinct), fails with the missing-fragments error
exactly when no fragment has flag bit 6 set or no fragment has flag bit 7
clear, and otherwise concatenates the payloads in ascending sequence
order; a missing middle fragment is NOT detected. -/
theorem reassembleData_spec :
    (∀ fragments : List Fragment,
      reassembleData fragments = .missing ↔
        ((∀ f ∈ fragments, Nat.land f.flags 0x40 = 0) ∨
         (∀ f ∈ fragments, Nat.land f.flags 0x80 ≠ 0))) ∧
    (∀ fragments : List Fragment,
      (fragments.map Fragment.sequence).Nodup →
      ∀ fragments' : List Fragment, fragments'.Perm fragments →
      reassembleData fragments' = reassembleData fragments) ∧
    (∀ (fragments : List Fragment) (data : List Nat) (n : Nat),
      reassembleData fragments = .ok data n →
      n = fragments.length ∧
      data = ((List.insertionSort fragLE fragments).map Fragment.payload).flatten ∧
      List.Sorted fragLE (List.insertionSort fragLE fragments)) := by
  refine ⟨?_, ?_, ?_⟩
  · intro fragments
    simp only [reassembleData]
    have hmem : ∀ f : Fragment,
        f ∈ List.insertionSort fragLE fragments ↔ f ∈ fragments :=
      fun f => (List.perm_insertionSort fragLE fragments).mem_iff
    split
    case isTrue h =>
      simp only [Bool.or_eq_true, Option.isNone_iff_eq_none, List.find?_eq_none] at h
      constructor
      · intro _
        rcases h with h | h
        · left
          intro f hf
          have := h f ((hmem f).2 hf)
          simpa using this
        · right
          intro f hf
          have := h f ((hmem f).2 hf)
          simpa using this
      · intro _
        rfl
    case isFalse h =>
      simp only [Bool.or_eq_true, Option.isNone_iff_eq_none, List.find?_eq_none,
        not_or] at h
      constructor
      · intro hcon
        exact absurd hcon (by simp)
      · intro hcase
        exfalso
        rcases hcase with hc | hc
        · apply h.1
          intro f hf
          have := hc f ((hmem f).1 hf)
          simpa using this
        · apply h.2
          intro f hf
          have := hc f ((hmem f).1 hf)
          simpa using this
  · intro fragments hnd fragments' hperm
    simp only [reassembleData]
    rw [insertionSort_eq_of_perm fragments' fragments hperm hnd]
  · intro fragments data n h
    simp only [reassembleData] at h
    split at h
    case isTrue hc => exact absurd h (by simp)
    case isFalse hc =>
      simp only [ReassembleResult.ok.injEq] at h
      refine ⟨?_, ?_, List.sorted_insertionSort fragLE fragments⟩
      · rw [← h.2]
        exact ((List.perm_insertionSort fragLE fragments).length_eq)
      · rw [← h.1, foldl_append_payload]
        simp

/-- Witness for the amended C6 theorem: the order-invariance conjunct applied
to a two-fragment message given in reversed order, and the error conjunct
applied to the empty fragment list. -/
theorem reassembleData_spec_witness :
    reassembleData [⟨1, 0x00, [2]⟩, ⟨0, 0xC0, [1]⟩]
      = reassembleData [⟨0, 0xC0, [1]⟩, ⟨1, 0x00, [2]⟩] ∧
    reassembleData ([] : List Fragment) = .missing :=
  ⟨reassembleData_spec.2.1 [⟨0, 0xC0, [1]⟩, ⟨1, 0x00, [2]⟩] (by decide)
      [⟨1, 0x00, [2]⟩, ⟨0, 0xC0, [1]⟩] (by decide),
   (reassembleData_spec.1 []).mpr (by decide)⟩


/-! ### Byte-to-symbol mapping -/

theorem drainBits_8 (B : Nat) : drainBits B 8 = [B / 2 ^ 5 % 8, B / 2 ^ 2 % 8] := rfl

theorem drainBits_10 (B : Nat) :
    drainBits B 10 = [B / 2 ^ 7 % 8, B / 2 ^ 4 % 8, B / 2 ^ 1 % 8] := rfl

theorem drainBits_9 (B : Nat) :
    drainBits B 9 = [B / 2 ^ 6 % 8, B / 2 ^ 3 % 8, B / 2 ^ 0 % 8] := rfl

theorem symbols8_core : ∀ (n : Nat) (data : List Nat), data.length ≤ n →
    (∀ b ∈ data, b < 256) → ∀ (u : Nat) (syms : List Nat),
    finalizeSymbols (data.foldl symbols8Step (u, 0, syms))
      = syms ++ bitsToSyms (bytesToBits data) := by
  intro n
  induction n with
  | zero =>
      intro data hlen _ u syms
      have hd : data = [] := List.eq_nil_of_length_eq_zero (by omega)
      subst hd
      simp [finalizeSymbols, bytesToBits, bitsToSyms]
  | succ n ih =>
      intro data hlen hb u syms
      match data with
      | [] => simp [finalizeSymbols, bytesToBits, bitsToSyms]
      | [a] =>
          have ha : a < 256 := hb a (by simp)
          simp only [List.foldl_cons, List.foldl_nil, symbols8Step]
          norm_num [drainBits_8, finalizeSymbols, bytesToBits, byteBits, bitsToSyms]
          refine ⟨by omega, by omega, by omega⟩
      | [a, b] =>
          have ha : a < 256 := hb a (by simp)
          have hbb : b < 256 := hb b (by simp)
          simp only [List.foldl_cons, List.foldl_nil, symbols8Step]
          norm_num [drainBits_8, drainBits_10, finalizeSymbols, bytesToBits,
            byteBits, bitsToSyms]
          refine ⟨by omega, by omega, by omega, by omega, by omega, by omega⟩
      | a :: b :: c :: rest =>
          have ha : a < 256 := hb a (by simp)
          have hbb : b < 256 := hb b (by simp)
          have hc : c < 256 := hb c (by simp)
          have hstep : (a :: b :: c :: rest).foldl symbols8Step (u, 0, syms)
              = rest.foldl symbols8Step
                ((((u * 256 + a) % 2 ^ 32 * 256 + b) % 2 ^ 32 * 256 + c) % 2 ^ 32, 0,
                 syms ++ drainBits ((u * 256 + a) % 2 ^ 32) 8
                   ++ drainBits (((u * 256 + a) % 2 ^ 32 * 256 + b) % 2 ^ 32) 10
                   ++ drainBits
                     ((((u * 256 + a) % 2 ^ 32 * 256 + b) % 2 ^ 32 * 256 + c) % 2 ^ 32)
                     9) := by
            simp only [List.foldl_cons, symbols8Step]
          rw [hstep, ih rest (by simp at hlen; omega) (fun x hx => hb x (by simp [hx]))]
          simp only [bytesToBits, bitsToSyms, byteBits, List.cons_append,
            List.nil_append, drainBits_8, drainBits_10, drainBits_9,
            List.append_assoc]
          rw [List.append_right_inj]
          simp only [List.cons.injEq]
          refine ⟨by omega, by omega, by omega, by omega, by omega, by omega,
            by omega, by omega, rfl⟩


/-- Claim C7 counterexample: for input `[0x01]` the final partial group
(bits `01`) is padded on the RIGHT by the code, giving last symbol
`0b010 = 2`, not the left-padded `0b001 = 1` stated by the claim. -/
theorem bytesToSymbols8_leftPad_counterexample :
    bytesToSymbols8 [1] = [0, 0, 2] ∧
    bitsToSymsLeftPad (bytesToBits [1]) = [0, 0, 1] ∧
    bytesToSymbols8 [1] ≠ bitsToSymsLeftPad (bytesToBits [1]) := by
  exact ⟨by decide, by decide, by decide⟩

/-- Claim C7 (amended): for M=16 each byte maps to its high nibble then its
low nibble (`0x3C ↦ [0x3, 0xC]`); for M=8 the byte bits are packed
MSB-first across byte boundaries into 3-bit symbols, and a final partial
group is padded with zeros on the RIGHT (low bits), not on the left. -/
theorem bytesToSymbols_spec :
    (∀ data : List Nat, bytesToSymbols16 data
        = (data.map (fun b => [b / 16 % 16, b % 16])).flatten) ∧
    bytesToSymbols16 [60] = [3, 12] ∧
    (∀ data : List Nat, (∀ b ∈ data, b < 256) →
      bytesToSymbols8 data = bitsToSyms (bytesToBits data)) := by
  refine ⟨?_, by decide, ?_⟩
  · intro data
    induction data with
    | nil => simp [bytesToSymbols16]
    | cons b rest ih => simp [bytesToSymbols16, ih]
  · intro data hb
    unfold bytesToSymbols8
    simpa using symbols8_core data.length data (Nat.le_refl _) hb 0 []

/-- Witness for the amended C7 theorem: the 8-FSK packing conjunct applied to
the single byte `0x3C`, whose last 3-bit group is right-padded. -/
theorem bytesToSymbols_spec_witness :
    bytesToSymbols8 [60] = bitsToSyms (bytesToBits [60]) :=
  bytesToSymbols_spec.2.2 [60] (by decide)


/-! ### MAC slot assignment -/

theorem pickSlotsAux_perm (k : Nat) : ∀ (r i : Nat), i + r ≤ k → ∀ avail : List Nat,
    ((pickSlotsAux k r i avail).1 ++ (pickSlotsAux k r i avail).2).Perm avail := by
  intro r
  induction r with
  | zero => intro i _ avail; simp [pickSlotsAux]
  | succ m ih =>
      intro i hik avail
      by_cases hav : avail.length = 0
      · simp [pickSlotsAux, hav]
      · have hlen : 0 < avail.length := by omega
        have hidx : avail.length * (i + 1) / (k + 1) < avail.length := by
          rw [Nat.div_lt_iff_lt_mul (by omega)]
          have : avail.length * (i + 1) < avail.length * (k + 1) :=
            (Nat.mul_lt_mul_left hlen).2 (by omega)
          omega
        simp only [pickSlotsAux, hav, if_false, List.cons_append]
        have hperm1 := ih (i + 1) (by omega)
          (avail.eraseIdx (avail.length * (i + 1) / (k + 1)))
        have hperm2 : (avail.getD (avail.length * (i + 1) / (k + 1)) 0 ::
            avail.eraseIdx (avail.length * (i + 1) / (k + 1))).Perm avail := by
          set j := avail.length * (i + 1) / (k + 1) with hj
          have h1 : avail.eraseIdx j = avail.take j ++ avail.drop (j + 1) :=
            List.eraseIdx_eq_take_drop_succ avail j
          have h2 : avail.getD j 0 = avail[j] := by
            simp [List.getD_eq_getElem?_getD, List.getElem?_eq_getElem hidx]
          rw [h1, h2]
          have h3 : (avail[j] :: (avail.take j ++ avail.drop (j + 1))).Perm
              (avail.take j ++ avail[j] :: avail.drop (j + 1)) :=
            List.perm_middle.symm
          have h4 : avail.take j ++ avail[j] :: avail.drop (j + 1) = avail := by
            rw [List.getElem_cons_drop, List.take_append_drop]
          rw [h4] at h3
          exact h3
        exact ((hperm1.cons _).trans hperm2)

theorem pickSlotsAux_length (k : Nat) : ∀ (r i : Nat), i + r ≤ k →
    ∀ avail : List Nat,
    (pickSlotsAux k r i avail).1.length = min r avail.length := by
  intro r
  induction r with
  | zero => intro i _ avail; simp [pickSlotsAux]
  | succ m ih =>
      intro i hik avail
      by_cases hav : avail.length = 0
      · simp [pickSlotsAux, hav]
      · have hlen : 0 < avail.length := by omega
        have hidx : avail.length * (i + 1) / (k + 1) < avail.length := by
          rw [Nat.div_lt_iff_lt_mul (by omega)]
          have : avail.length * (i + 1) < avail.length * (k + 1) :=
            (Nat.mul_lt_mul_left hlen).2 (by omega)
          omega
        simp only [pickSlotsAux, hav, if_false, List.length_cons]
        rw [ih (i + 1) (by omega)]
        rw [List.length_eraseIdx, if_pos hidx]
        omega

theorem pickSlots_perm (k : Nat) (avail : List Nat) :
    ((pickSlots k avail).1 ++ (pickSlots k avail).2).Perm avail :=
  pickSlotsAux_perm k k 0 (by omega) avail

theorem pickSlots_length (k : Nat) (avail : List Nat) :
    (pickSlots k avail).1.length = min k avail.length :=
  pickSlotsAux_length k k 0 (by omega) avail

theorem pickSlots_nodup {k : Nat} {avail : List Nat} (h : avail.Nodup) :
    (pickSlots k avail).1.Nodup :=
  (((pickSlots_perm k avail).symm.nodup h)).of_append_left

theorem pickSlots_subset (k : Nat) (avail : List Nat) :
    (pickSlots k avail).1 ⊆ avail := by
  intro x hx
  exact (pickSlots_perm k avail).subset (List.mem_append_left _ hx)

theorem pickSlotsAux_nil (k : Nat) : ∀ r i, pickSlotsAux k r i [] = ([], []) := by
  intro r
  cases r with
  | zero => intro i; rfl
  | succ m => intro i; simp [pickSlotsAux]


theorem processAux_slots_eq_pick (req : SlotRequest) (rest : List SlotRequest)
    (avail : List Nat) (table : List (Nat × List Nat)) :
    (processAux (req :: rest) avail table).1
      = (req.deviceId,
          if (pickSlots req.numSlots avail).1 ≠ [] then
            ⟨true, (pickSlots req.numSlots avail).1, none⟩
          else ⟨false, [], some ("No slots available")⟩) ::
        (processAux rest (pickSlots req.numSlots avail).2
          (if (pickSlots req.numSlots avail).1 ≠ [] then
            setEntry table req.deviceId (pickSlots req.numSlots avail).1
           else table)).1 := by
  simp only [processAux]

theorem processAux_perm : ∀ (reqs : List SlotRequest) (avail : List Nat)
    (table : List (Nat × List Nat)),
    (((processAux reqs avail table).1.map (fun e => e.2.slots)).flatten
      ++ (processAux reqs avail table).2.2).Perm avail := by
  intro reqs
  induction reqs with
  | nil => intro avail table; simp [processAux]
  | cons req rest ih =>
      intro avail table
      rw [processAux_slots_eq_pick]
      have hpick := pickSlots_perm req.numSlots avail
      have hslots : (if (pickSlots req.numSlots avail).1 ≠ [] then
            (⟨true, (pickSlots req.numSlots avail).1, none⟩ : SlotResult)
          else ⟨false, [], some ("No slots available")⟩).slots
          = (pickSlots req.numSlots avail).1 := by
        split
        · rfl
        · next h =>
            rw [not_ne_iff] at h
            simp [h]
      have hrest := ih (pickSlots req.numSlots avail).2
        (if (pickSlots req.numSlots avail).1 ≠ [] then
          setEntry table req.deviceId (pickSlots req.numSlots avail).1
         else table)
      have goal1 : ((((req.deviceId,
          if (pickSlots req.numSlots avail).1 ≠ [] then
            (⟨true, (pickSlots req.numSlots avail).1, none⟩ : SlotResult)
          else ⟨false, [], some ("No slots available")⟩) ::
          (processAux rest (pickSlots req.numSlots avail).2
            (if (pickSlots req.numSlots avail).1 ≠ [] then
              setEntry table req.deviceId (pickSlots req.numSlots avail).1
             else table)).1).map (fun e => e.2.slots)).flatten
          ++ (processAux rest (pickSlots req.numSlots avail).2
            (if (pickSlots req.numSlots avail).1 ≠ [] then
              setEntry table req.deviceId (pickSlots req.numSlots avail).1
             else table)).2.2).Perm
          ((pickSlots req.numSlots avail).1 ++ (pickSlots req.numSlots avail).2) := by
        simp only [List.map_cons, List.flatten_cons, hslots, List.append_assoc]
        exact (hrest.append_left _)
      have hfinal : (processAux (req :: rest) avail table).2.2
          = (processAux rest (pickSlots req.numSlots avail).2
            (if (pickSlots req.numSlots avail).1 ≠ [] then
              setEntry table req.deviceId (pickSlots req.numSlots avail).1
             else table)).2.2 := by
        simp only [processAux]
      rw [hfinal]
      exact goal1.trans hpick

theorem processAux_results_nodup (reqs : List SlotRequest) (avail : List Nat)
    (table : List (Nat × List Nat)) (h : avail.Nodup) :
    (((processAux reqs avail table).1.map (fun e => e.2.slots)).flatten).Nodup :=
  (((processAux_perm reqs avail table).symm.nodup h)).of_append_left

theorem processAux_results_subset (reqs : List SlotRequest) (avail : List Nat)
    (table : List (Nat × List Nat)) :
    ∀ e ∈ (processAux reqs avail table).1, ∀ x ∈ e.2.slots, x ∈ avail := by
  intro e he x hx
  refine (processAux_perm reqs avail table).subset (List.mem_append_left _ ?_)
  rw [List.mem_flatten]
  exact ⟨e.2.slots, List.mem_map_of_mem _ he, hx⟩

theorem processAux_empty_denies : ∀ (reqs : List SlotRequest)
    (table : List (Nat × List Nat)),
    ∀ e ∈ (processAux reqs [] table).1,
      e.2 = ⟨false, [], some ("No slots available")⟩ := by
  intro reqs
  induction reqs with
  | nil => intro table e he; simp [processAux] at he
  | cons req rest ih =>
      intro table e he
      have hnil : pickSlots req.numSlots [] = ([], []) :=
        pickSlotsAux_nil req.numSlots req.numSlots 0
      rw [processAux_slots_eq_pick, hnil] at he
      simp only [List.mem_cons] at he
      rcases he with he | he
      · rw [he]
        simp
      · exact ih _ e he


/-- Claim C8: coordinator slot assignment.  Requests are processed in
descending priority order (stable sort); a request for `k` slots receives
`min k |free|` distinct slots from the free pool, each chosen at index
`⌊|free|·(i+1)/(k+1)⌋` of the shrinking free list; assignments to
different requests are pairwise disjoint (their concatenation has no
duplicates); two devices requesting 2 slots each on a 20-slot frame get
`[6, 13]` and `[7, 14]` — four distinct slots; and with no free slots
every request is denied with reason `No slots available`. -/
theorem coordinator_slot_assignment :
    ((processSlotRequests 20 [⟨1, 2, 5⟩, ⟨2, 2, 5⟩] []).1
        = [(1, ⟨true, [6, 13], none⟩), (2, ⟨true, [7, 14], none⟩)] ∧
      ([6, 13] ++ [7, 14]).Nodup ∧ ([6, 13] ++ [7, 14]).length = 4) ∧
    (∀ requests : List SlotRequest,
      List.Sorted priorityGE (List.insertionSort priorityGE requests) ∧
      (List.insertionSort priorityGE requests).Perm requests) ∧
    (∀ (k : Nat) (avail : List Nat), avail.Nodup →
      (pickSlots k avail).1.Nodup ∧
      (pickSlots k avail).1.length = min k avail.length ∧
      (pickSlots k avail).1 ⊆ avail) ∧
    (∀ (S : Nat) (requests : List SlotRequest) (table : List (Nat × List Nat)),
      (((processSlotRequests S requests table).1.map
        (fun e => e.2.slots)).flatten).Nodup) ∧
    (∀ (reqs : List SlotRequest) (table : List (Nat × List Nat)),
      ∀ e ∈ (processAux reqs [] table).1,
        e.2 = ⟨false, [], some ("No slots available")⟩) := by
  refine ⟨⟨by decide, by decide, by decide⟩, ?_, ?_, ?_, processAux_empty_denies⟩
  · intro requests
    exact ⟨List.sorted_insertionSort priorityGE requests,
      List.perm_insertionSort priorityGE requests⟩
  · intro k avail h
    exact ⟨pickSlots_nodup h, pickSlots_length k avail, pickSlots_subset k avail⟩
  · intro S requests table
    apply processAux_results_nodup
    exact List.Nodup.filter _ (List.nodup_range S)

/-- Witness for the C8 theorem: picking 2 slots from the 4-slot pool
`[0, 1, 2, 3]` yields two distinct slots. -/
theorem coordinator_slot_assignment_witness :
    (pickSlots 2 [0, 1, 2, 3]).1.Nodup ∧
    (pickSlots 2 [0, 1, 2, 3]).1.length = min 2 [0, 1, 2, 3].length :=
  ⟨(coordinator_slot_assignment.2.2.1 2 [0, 1, 2, 3] (by decide)).1,
   (coordinator_slot_assignment.2.2.1 2 [0, 1, 2, 3] (by decide)).2.1⟩


/-! ### Slot-table invariants -/

theorem flattenSlots_cons (e : Nat × List Nat) (t : List (Nat × List Nat)) :
    flattenSlots (e :: t) = e.2 ++ flattenSlots t := by
  simp [flattenSlots]

theorem mem_flattenSlots {x : Nat} {table : List (Nat × List Nat)} :
    x ∈ flattenSlots table ↔ ∃ e ∈ table, x ∈ e.2 := by
  unfold flattenSlots
  rw [List.mem_flatten]
  constructor
  · rintro ⟨l, hl, hx⟩
    rw [List.mem_map] at hl
    obtain ⟨e, he, rfl⟩ := hl
    exact ⟨e, he, hx⟩
  · rintro ⟨e, he, hx⟩
    exact ⟨e.2, List.mem_map_of_mem _ he, hx⟩

theorem setEntry_mem : ∀ (table : List (Nat × List Nat)) (k : Nat) (v : List Nat),
    ∀ e ∈ setEntry table k v, e = (k, v) ∨ e ∈ table := by
  intro table
  induction table with
  | nil => intro k v e he; simp [setEntry] at he; simp [he]
  | cons f t ih =>
      intro k v e he
      simp only [setEntry] at he
      split at he
      · rcases List.mem_cons.1 he with he | he
        · exact Or.inl he
        · exact Or.inr (List.mem_cons_of_mem _ he)
      · rcases List.mem_cons.1 he with he | he
        · exact Or.inr (he ▸ List.mem_cons_self _ _)
        · rcases ih k v e he with h | h
          · exact Or.inl h
          · exact Or.inr (List.mem_cons_of_mem _ h)

theorem flattenSlots_setEntry_sub :
    ∀ (table : List (Nat × List Nat)) (k : Nat) (v : List Nat) (x : Nat),
    x ∈ flattenSlots (setEntry table k v) → x ∈ v ∨ x ∈ flattenSlots table := by
  intro table
  induction table with
  | nil =>
      intro k v x hx
      simp [setEntry, flattenSlots] at hx
      exact Or.inl hx
  | cons f t ih =>
      intro k v x hx
      simp only [setEntry] at hx
      split at hx
      · rw [flattenSlots_cons] at hx
        rcases List.mem_append.1 hx with h | h
        · exact Or.inl h
        · right
          rw [flattenSlots_cons]
          exact List.mem_append_right _ h
      · rw [flattenSlots_cons] at hx
        rcases List.mem_append.1 hx with h | h
        · right
          rw [flattenSlots_cons]
          exact List.mem_append_left _ h
        · rcases ih k v x h with h2 | h2
          · exact Or.inl h2
          · right
            rw [flattenSlots_cons]
            exact List.mem_append_right _ h2

theorem flattenSlots_setEntry_nodup :
    ∀ (table : List (Nat × List Nat)) (k : Nat) (v : List Nat),
    (flattenSlots table).Nodup → v.Nodup → (∀ x ∈ v, x ∉ flattenSlots table) →
    (flattenSlots (setEntry table k v)).Nodup := by
  intro table
  induction table with
  | nil =>
      intro k v _ hv _
      simpa [setEntry, flattenSlots] using hv
  | cons f t ih =>
      intro k v hnd hv hdisj
      rw [flattenSlots_cons] at hnd
      have hf2 : f.2.Nodup := hnd.of_append_left
      have ht : (flattenSlots t).Nodup := hnd.of_append_right
      have hft : f.2.Disjoint (flattenSlots t) := List.disjoint_of_nodup_append hnd
      simp only [setEntry]
      split
      · rw [flattenSlots_cons]
        refine List.Nodup.append hv ht ?_
        intro x hxv hxt
        exact hdisj x hxv (by rw [flattenSlots_cons]; exact List.mem_append_right _ hxt)
      · rw [flattenSlots_cons]
        refine List.Nodup.append hf2 ?_ ?_
        · exact ih k v ht hv (fun x hx hmem => hdisj x hx
            (by rw [flattenSlots_cons]; exact List.mem_append_right _ hmem))
        · intro x hxf hxs
          rcases flattenSlots_setEntry_sub t k v x hxs with h | h
          · exact hdisj x h (by rw [flattenSlots_cons]; exact List.mem_append_left _ hxf)
          · exact hft hxf h

theorem nodup_length_le (l : List Nat) (S : Nat) (hnd : l.Nodup)
    (hb : ∀ x ∈ l, x < S) : l.length ≤ S := by
  classical
  have h1 : l.toFinset.card = l.length := List.toFinset_card_of_nodup hnd
  have h2 : l.toFinset ⊆ Finset.range S := by
    intro x hx
    rw [List.mem_toFinset] at hx
    rw [Finset.mem_range]
    exact hb x hx
  have h3 := Finset.card_le_card h2
  rw [h1, Finset.card_range] at h3
  exact h3

theorem componentNodup_of_flatten :
    ∀ table : List (Nat × List Nat), (flattenSlots table).Nodup →
    ∀ e ∈ table, e.2.Nodup := by
  intro table
  induction table with
  | nil => intro _ e he; simp at he
  | cons f t ih =>
      intro hnd e he
      rw [flattenSlots_cons] at hnd
      rcases List.mem_cons.1 he with he | he
      · rw [he]
        exact hnd.of_append_left
      · exact ih hnd.of_append_right e he

theorem slotUtilization_nonneg (S : Nat) (table : List (Nat × List Nat)) :
    0 ≤ slotUtilization S table := by
  unfold slotUtilization
  positivity

theorem tableWF_bounds {S : Nat} {table : List (Nat × List Nat)}
    (h : TableWF S table) :
    slotUtilization S table ≤ 1 ∧ ∀ e ∈ table, e.2.length ≤ S := by
  obtain ⟨hnd, hbnd⟩ := h
  have hused : (flattenSlots table).length ≤ S := by
    refine nodup_length_le _ S hnd ?_
    intro x hx
    rcases mem_flattenSlots.1 hx with ⟨e, he, hxe⟩
    exact hbnd e he x hxe
  constructor
  · unfold slotUtilization
    rcases Nat.eq_zero_or_pos S with hS | hS
    · subst hS
      have : (flattenSlots table).length = 0 := by omega
      rw [this]
      norm_num
    · rw [div_le_one (by positivity)]
      exact_mod_cast hused
  · intro e he
    refine nodup_length_le _ S (componentNodup_of_flatten table hnd e he) ?_
    intro x hx
    exact hbnd e he x hx

theorem processAux_preserves_WF :
    ∀ (reqs : List SlotRequest) (avail : List Nat) (table : List (Nat × List Nat))
      (S : Nat), TableWF S table → avail.Nodup → (∀ x ∈ avail, x < S) →
      (∀ x ∈ avail, x ∉ flattenSlots table) →
      TableWF S (processAux reqs avail table).2.1 := by
  intro reqs
  induction reqs with
  | nil =>
      intro avail table S hWF _ _ _
      simpa [processAux] using hWF
  | cons req rest ih =>
      intro avail table S hWF hnd hlt hdisj
      have hpick := pickSlots_perm req.numSlots avail
      have hpnodup : ((pickSlots req.numSlots avail).1
          ++ (pickSlots req.numSlots avail).2).Nodup := hpick.symm.nodup hnd
      have hsub1 := pickSlots_subset req.numSlots avail
      have hsub2 : (pickSlots req.numSlots avail).2 ⊆ avail := by
        intro x hx
        exact hpick.subset (List.mem_append_right _ hx)
      have htab1 : (processAux (req :: rest) avail table).2.1
          = (processAux rest (pickSlots req.numSlots avail).2
            (if (pickSlots req.numSlots avail).1 ≠ [] then
              setEntry table req.deviceId (pickSlots req.numSlots avail).1
             else table)).2.1 := by
        simp only [processAux]
      rw [htab1]
      have hWF2 : TableWF S (if (pickSlots req.numSlots avail).1 ≠ [] then
          setEntry table req.deviceId (pickSlots req.numSlots avail).1
        else table) := by
        split
        · constructor
          · refine flattenSlots_setEntry_nodup table req.deviceId _ hWF.1
              (hpnodup.of_append_left) ?_
            intro x hx
            exact hdisj x (hsub1 hx)
          · intro e he s hs
            rcases setEntry_mem table req.deviceId _ e he with h | h
            · rw [h] at hs
              exact hlt s (hsub1 hs)
            · exact hWF.2 e h s hs
        · exact hWF
      refine ih (pickSlots req.numSlots avail).2 _ S hWF2
        (hpnodup.of_append_right) (fun x hx => hlt x (hsub2 hx)) ?_
      intro x hx hmem
      have hx1 : x ∉ (pickSlots req.numSlots avail).1 :=
        fun hc => (List.disjoint_of_nodup_append hpnodup) hc hx
      have hx2 : x ∉ flattenSlots table := hdisj x (hsub2 hx)
      revert hmem
      split
      · intro hmem
        rcases flattenSlots_setEntry_sub table req.deviceId _ x hmem with h | h
        · exact hx1 h
        · exact hx2 h
      · intro hmem
        exact hx2 hmem

theorem getAvailableSlots_mem {S : Nat} {table : List (Nat × List Nat)} {x : Nat}
    (hx : x ∈ getAvailableSlots S table) :
    x < S ∧ x ∉ flattenSlots table := by
  unfold getAvailableSlots at hx
  rw [List.mem_filter, List.mem_range] at hx
  refine ⟨hx.1, ?_⟩
  intro hmem
  rcases mem_flattenSlots.1 hmem with ⟨e, he, hxe⟩
  have h2 := hx.2
  rw [Bool.not_eq_true'] at h2
  have h3 : table.any (fun e => e.2.contains x) = true :=
    List.any_eq_true.2 ⟨e, he, List.elem_eq_true_of_mem hxe⟩
  rw [h2] at h3
  exact Bool.false_ne_true h3


/-- Claim C9 counterexample: contention-based slot selection does not
enforce the invariants.  A device (id `"A"`, hash 65) requesting 21 slots
at priority 5 on a 20-slot frame gets `assignedSlots` of length 21 > 20,
and the frame-start utilisation computed from the resulting slot table is
21/20 > 1. -/
theorem mac_invariants_counterexample :
    (contentionSlots 20 (hashDevice [65]) 5 21).length = 21 ∧
    ¬((contentionSlots 20 (hashDevice [65]) 5 21).length ≤ 20) ∧
    1 < slotUtilization 20 [(0, contentionSlots 20 (hashDevice [65]) 5 21)] := by
  refine ⟨by decide, by decide, ?_⟩
  have hlen : (flattenSlots [(0, contentionSlots 20 (hashDevice [65]) 5 21)]).length
      = 21 := by decide
  unfold slotUtilization
  rw [hlen]
  norm_num

/-- Claim C9 (amended): slot utilisation is always ≥ 0; on a
coordinator-maintained slot table (pairwise-disjoint, duplicate-free slot
lists within `[0, slotsPerFrame)`) utilisation is ≤ 1 and every per-device
slot list — in particular `assignedSlots` — has at most `slotsPerFrame`
entries, and coordinator slot-request processing preserves such
well-formedness; contention-based selection and `updateSlotTable` do not
enforce the bounds (see the counterexample). -/
theorem mac_invariants :
    (∀ (S : Nat) (table : List (Nat × List Nat)), 0 ≤ slotUtilization S table) ∧
    (∀ (S : Nat) (table : List (Nat × List Nat)), TableWF S table →
      slotUtilization S table ≤ 1 ∧ ∀ e ∈ table, e.2.length ≤ S) ∧
    (∀ (S : Nat) (requests : List SlotRequest) (table : List (Nat × List Nat)),
      TableWF S table →
      TableWF S (processSlotRequests S requests table).2.1) := by
  refine ⟨slotUtilization_nonneg, fun S table h => tableWF_bounds h, ?_⟩
  intro S requests table hWF
  unfold processSlotRequests
  refine processAux_preserves_WF _ _ _ S hWF ?_ ?_ ?_
  · exact List.Nodup.filter _ (List.nodup_range S)
  · intro x hx
    exact (getAvailableSlots_mem hx).1
  · intro x hx
    exact (getAvailableSlots_mem hx).2

/-- Witness for the amended C9 theorem: a well-formed 20-slot table with two
devices holding `[2, 5]` and `[7]` has utilisation ≤ 1 and stays
well-formed after coordinator processing of a new request. -/
theorem mac_invariants_witness :
    slotUtilization 20 [(1, [2, 5]), (2, [7])] ≤ 1 ∧
    TableWF 20 (processSlotRequests 20 [⟨3, 2, 5⟩] [(1, [2, 5]), (2, [7])]).2.1 :=
  ⟨(mac_invariants.2.1 20 [(1, [2, 5]), (2, [7])] ⟨by decide, by decide⟩).1,
   mac_invariants.2.2 20 [⟨3, 2, 5⟩] [(1, [2, 5]), (2, [7])] ⟨by decide, by decide⟩⟩


/-! ### createFrame size behaviour -/

theorem createFrame_length (p : List Nat) (t s f : Nat) :
    (createFrame p t s f).length = 12 + p.length := by
  simp only [createFrame, List.length_append, List.length_cons, List.length_nil]
  omega

theorem createFrame_field (p : List Nat) (t s f : Nat) :
    lengthField (createFrame p t s f)
      = p.length / 256 % 256 * 256 + p.length % 256 := by
  simp only [createFrame, lengthField]
  rw [List.getD_append _ _ _ 6 (by simp), List.getD_append _ _ _ 7 (by simp),
    List.getD_append _ _ _ 6 (by simp), List.getD_append _ _ _ 7 (by simp)]
  rfl

/-- Claim C10 counterexample: for a 65536-byte payload the 16-bit length
field wraps to 0, so it does not hold `L` for payloads of *any* length. -/
theorem createFrame_field_wraps :
    lengthField (createFrame (List.replicate 65536 0) 0 0 0) = 0 ∧
    lengthField (createFrame (List.replicate 65536 0) 0 0 0) ≠ 65536 := by
  have h := createFrame_field (List.replicate 65536 0) 0 0 0
  rw [List.length_replicate] at h
  norm_num at h
  rw [h]
  omega

/-- Claim C10 (amended): `createFrame` performs no payload-size check.  For
every payload it returns (without any error path) a frame of length
`12 + L`; the big-endian length field holds `L % 65536`, hence `L` itself
for every `L < 65536` — in particular for `L = 300`, well above
`max_payload_size = 256`.  Only `fragmentData` applies the 256-byte limit. -/
theorem createFrame_no_size_check :
    (∀ (p : List Nat) (t s f : Nat),
      (createFrame p t s f).length = 12 + p.length) ∧
    (∀ (p : List Nat) (t s f : Nat),
      lengthField (createFrame p t s f) = p.length % 65536) ∧
    (∀ (p : List Nat) (t s f : Nat), p.length < 65536 →
      lengthField (createFrame p t s f) = p.length) := by
  refine ⟨createFrame_length, ?_, ?_⟩
  · intro p t s f
    rw [createFrame_field]
    omega
  · intro p t s f h
    rw [createFrame_field]
    omega

/-- Witness for the amended C10 theorem: a 300-byte payload (over the
256-byte `max_payload_size`) yields a 312-byte frame whose length field
reads 300. -/
theorem createFrame_no_size_check_witness :
    (createFrame (List.replicate 300 0) 0 0 0).length = 312 ∧
    lengthField (createFrame (List.replicate 300 0) 0 0 0) = 300 := by
  constructor
  · rw [createFrame_no_size_check.1]
    simp
  · rw [createFrame_no_size_check.2.2 (List.replicate 300 0) 0 0 0 (by simp)]
    simp

end Acoustic
